import Mathlib

/-!
A shallow embedding of `.github/scripts/update_maps_json.py`, the script that
regenerates the `maps.json` manifest from the `campaigns/<Campaign>/` tree.

File contents are represented by their SHA-256 hex digests (the script only
ever compares digests), and the filesystem scan is represented by the list of
discovered files per campaign directory, in enumeration order (the script
sorts them itself).  Python's `sorted` is a stable sort, modelled here by the
equally stable `List.insertionSort`; Python string comparison is code-point
lexicographic, modelled by `charsLe` on `String.data`.  `str.lower()` is
modelled on ASCII, which is what the repository's file names use; the `\d`
class of `VER_RE` is modelled as the full Unicode decimal-digit category
(`ndBases`/`isPyDigit`), and the `$` anchor's acceptance of one trailing
newline is modelled in `verMatch`.  One behavioural subtlety is modelled
explicitly: the
per-file loop mutates the dicts stored in `old_maps` in place, and the
campaign-bump comparison reads `old_maps.values()` only after the loop, so
it sees the already-updated entries (`mutatedOldMaps` below).  Definitions
keep the Python source's names where possible.
-/

namespace MapsJson

/-- Code-point lexicographic comparison of character lists, Python's `<=` on
strings: the first differing position decides, a strict prefix is smaller. -/
def charsLe : List Char → List Char → Bool
  | [], _ => true
  | _ :: _, [] => false
  | a :: as, b :: bs =>
    if a < b then true
    else if b < a then false
    else charsLe as bs

/-- Python string `<=`. -/
def strLe (s t : String) : Bool := charsLe s.data t.data

/-- Python `str.lower()` (ASCII). -/
def pyLower (s : String) : String := ⟨s.data.map Char.toLower⟩

/-- Is `needle` a prefix of `hay`? -/
def prefOf : List Char → List Char → Bool
  | [], _ => true
  | _ :: _, [] => false
  | a :: as, b :: bs => a == b && prefOf as bs

/-- Python `needle in hay` for strings: substring containment. -/
def containsSub (hay needle : List Char) : Bool :=
  match hay with
  | [] => needle.isEmpty
  | _ :: t => prefOf needle hay || containsSub t needle

/-- Decimal digit character. -/
def digitChar (n : Nat) : Char := Char.ofNat (48 + n)

/-- Canonical decimal digits of `n` (with explicit fuel so the definition is
structural); Python renders `int`s in an f-string exactly this way. -/
def natReprAux : Nat → Nat → List Char
  | 0, _ => []
  | fuel + 1, n =>
    if n < 10 then [digitChar n]
    else natReprAux fuel (n / 10) ++ [digitChar (n % 10)]

/-- Canonical decimal rendering of a natural number. -/
def natRepr (n : Nat) : String := ⟨natReprAux (n + 1) n⟩

/-- Base code points of the Unicode (14.0, CPython 3.11) decimal-digit
blocks, category `Nd`: each entry starts a run of ten consecutive code points
carrying the digit values 0–9.  On `str` patterns without `re.ASCII`,
Python's `\d` matches exactly these characters. -/
def ndBases : List Nat :=
  [0x30, 0x660, 0x6f0, 0x7c0, 0x966, 0x9e6, 0xa66, 0xae6, 0xb66, 0xbe6,
   0xc66, 0xce6, 0xd66, 0xde6, 0xe50, 0xed0, 0xf20, 0x1040, 0x1090, 0x17e0,
   0x1810, 0x1946, 0x19d0, 0x1a80, 0x1a90, 0x1b50, 0x1bb0, 0x1c40, 0x1c50,
   0xa620, 0xa8d0, 0xa900, 0xa9d0, 0xa9f0, 0xaa50, 0xabf0, 0xff10, 0x104a0,
   0x10d30, 0x11066, 0x110f0, 0x11136, 0x111d0, 0x112f0, 0x11450, 0x114d0,
   0x11650, 0x116c0, 0x11730, 0x118e0, 0x11950, 0x11c50, 0x11d50, 0x11da0,
   0x16a60, 0x16ac0, 0x16b50, 0x1d7ce, 0x1d7d8, 0x1d7e2, 0x1d7ec, 0x1d7f6,
   0x1e140, 0x1e2f0, 0x1e950, 0x1fbf0]

/-- Python's `\d` on a `str` pattern: any Unicode decimal digit. -/
def isPyDigit (c : Char) : Bool :=
  ndBases.any (fun b => decide (b ≤ c.toNat) && decide (c.toNat < b + 10))

/-- The decimal value of a digit character, its offset in its `Nd` block;
Python's `int` sums these positionally over any mix of digit scripts. -/
def pyDigitVal (c : Char) : Nat :=
  match ndBases.find? (fun b => decide (b ≤ c.toNat) && decide (c.toNat < b + 10)) with
  | some b => c.toNat - b
  | none => 0

/-- Numeric value of a digit string, Python `int` applied to a `\d+` group. -/
def natOfDigits (l : List Char) : Nat := l.foldl (fun n c => n * 10 + pyDigitVal c) 0

/-- In a non-multiline pattern Python's `$` matches at the end of the string
or just before a newline that ends the string, so `VER_RE.match` tolerates
exactly one trailing `'\n'`; it is excluded from the matched groups. -/
def verStrip (s : String) : List Char :=
  if s.data.getLast? = some '\x0a' then s.data.dropLast else s.data

/-- `VER_RE = re.compile(r"^(?P<maj>\d+)\.(?P<min>\d+)$")`: after discounting
one trailing newline, the string must be digits `.` digits (Unicode decimal
digits); the two groups are returned as numbers. -/
def verMatch (s : String) : Option (Nat × Nat) :=
  match (verStrip s).span (fun c => isPyDigit c) with
  | ([], _) => none
  | (_, []) => none
  | (d1, c :: d2) =>
      if c = '.' ∧ d2 ≠ [] ∧ d2.all (fun x => isPyDigit x) = true then
        some (natOfDigits d1, natOfDigits d2)
      else none

/-- The claim's reading of "the active scheme's format": the whole string is
digits `.` digits — no trailing-newline allowance.  Stated from the claim's
words, to be compared with `verMatch`, the code's actual acceptance. -/
def claimedVerFormat (s : String) : Bool :=
  match s.data.span (fun c => isPyDigit c) with
  | ([], _) => false
  | (_, []) => false
  | (_, c :: d2) => decide (c = '.') && !d2.isEmpty && d2.all (fun x => isPyDigit x)

/-- `bump_minor`: parse the version with `VER_RE.match(ver or "1.0") or
VER_RE.match("1.0")` and increment the minor component.  The final `none`
branch is unreachable because `verMatch "1.0" = some (1, 0)`. -/
def bump_minor (ver : String) : String :=
  let v := if ver = "" then "1.0" else ver
  match (verMatch v).orElse (fun _ => verMatch "1.0") with
  | some (maj, minor) => natRepr maj ++ "." ++ natRepr (minor + 1)
  | none => ""

/-- UTF-8 bytes of one character. -/
def utf8Bytes (c : Char) : List Nat :=
  let n := c.toNat
  if n < 128 then [n]
  else if n < 2048 then [192 + n / 64, 128 + n % 64]
  else if n < 65536 then [224 + n / 4096, 128 + n / 64 % 64, 128 + n % 64]
  else [240 + n / 262144, 128 + n / 4096 % 64, 128 + n / 64 % 64, 128 + n % 64]

/-- Bytes that `urllib.parse.quote` leaves unescaped: ASCII alphanumerics,
`_ . - ~` and the default safe character `/`. -/
def isSafeByte (b : Nat) : Bool :=
  (65 ≤ b && b ≤ 90) || (97 ≤ b && b ≤ 122) || (48 ≤ b && b ≤ 57) ||
  b == 95 || b == 46 || b == 45 || b == 126 || b == 47

/-- Uppercase hex digit. -/
def hexDigitChar (n : Nat) : Char :=
  if n < 10 then Char.ofNat (48 + n) else Char.ofNat (55 + n)

/-- Percent-encode a single byte, or keep it when safe. -/
def encByte (b : Nat) : List Char :=
  if isSafeByte b then [Char.ofNat b] else ['%', hexDigitChar (b / 16), hexDigitChar (b % 16)]

/-- `urllib.parse.quote` with its default safe characters. -/
def quote (s : String) : String := ⟨((s.data.map utf8Bytes).flatten.map encByte).flatten⟩

/-- One file found by the scan: a `*.SC2Map` in the campaign root
(`isMod = false`) or a `*.SC2Mod` under `mods/` (`isMod = true`).  `digest`
is its SHA-256 hex digest; `size` is its byte size, which the script never
reads (it is carried only to state the oversized-file claim). -/
structure DiskFile where
  name : String
  isMod : Bool
  digest : String
  size : Nat
deriving DecidableEq

/-- One `maps` entry of the manifest.  `release_asset = true` models the JSON
key `"release_asset": true`; an absent or falsy key is modelled by `false`. -/
structure Entry where
  name : String
  version : String
  sha256 : String
  url : String
  release_asset : Bool
deriving DecidableEq

/-- One campaign block of `maps.json`. -/
structure Block where
  title : String
  version : String
  asset : String
  maps : List Entry
deriving DecidableEq

/-- One campaign directory with its discovered files, in filesystem
enumeration order. -/
structure CampaignDir where
  title : String
  files : List DiskFile
deriving DecidableEq

/-- Insert into a Python dict modelled as an ordered list: an existing key
keeps its position and gets the new value, a new key is appended. -/
def dictInsert (key : α → String) (acc : List α) (x : α) : List α :=
  if acc.any (fun y => decide (key y = key x)) then
    acc.map (fun y => if key y = key x then x else y)
  else acc ++ [x]

/-- `{key(x): x for x in l}` as an ordered association list. -/
def pyDict (key : α → String) (l : List α) : List α := l.foldl (dictInsert key) []

/-- `d.get(k)` on such a dict. -/
def dictGet (key : α → String) (l : List α) (k : String) : Option α :=
  (pyDict key l).find? (fun x => decide (key x = k))

/-- Sort key of the per-file loop: `key=lambda p: p.name.lower()`. -/
def fileKey (f : DiskFile) : String := pyLower f.name

/-- Comparison of the per-file loop. -/
def fileLe (a b : DiskFile) : Bool := strLe (fileKey a) (fileKey b)

/-- Does the entry name contain `"launcher"`, case-insensitively? -/
def hasLauncher (e : Entry) : Bool := containsSub (pyLower e.name).data "launcher".data

/-- First component of the final sort key:
`0 if "launcher" in m["name"].lower() else 1`. -/
def entryGroup (e : Entry) : Nat := if hasLauncher e then 0 else 1

/-- Second component of the final sort key: `m["name"].lower()`. -/
def entryLowerName (e : Entry) : String := pyLower e.name

/-- Comparison of the final launcher-first entry sort (lexicographic on the
key pair). -/
def entryLe (a b : Entry) : Bool :=
  decide (entryGroup a < entryGroup b) ||
  (decide (entryGroup a = entryGroup b) && strLe (entryLowerName a) (entryLowerName b))

/-- Comparison of the campaign-bump sort: `key=lambda m: m["name"]`. -/
def nameLe (a b : Entry) : Bool := strLe a.name b.name

/-- Order of `sorted(p for p in MAPS_DIR.iterdir() if p.is_dir())`: for a
fixed parent directory, code-point order of directory names. -/
def dirLe (a b : CampaignDir) : Bool := strLe a.title b.title

/-- Python `sorted`: a stable sort, modelled by the stable insertion sort. -/
def pySorted (le : α → α → Bool) (l : List α) : List α :=
  List.insertionSort (fun a b => le a b = true) l

/-- `RAW_BASE`. -/
def RAW_BASE (ownerRepo : String) : String :=
  "https://raw.githubusercontent.com/" ++ ownerRepo ++ "/main/"

/-- `path.relative_to(ROOT).as_posix()` of a discovered file. -/
def relPath (title : String) (f : DiskFile) : String :=
  "campaigns/" ++ title ++ "/" ++ (if f.isMod then "mods/" else "") ++ f.name

/-- The recomputed download URL: `RAW_BASE + quote(rel)`. -/
def fileUrl (ownerRepo title : String) (f : DiskFile) : String :=
  RAW_BASE ownerRepo ++ quote (relPath title f)

/-- The seeded entry of a file without a previous entry:
`{"version": "1.0", "sha256": "", "name": name}` (no URL, no flag yet). -/
def seedEntry (name : String) : Entry :=
  { name := name, version := "1.0", sha256 := "", url := "", release_asset := false }

/-- Body of the per-file loop: look the old entry up by name (or seed one),
bump the version and replace the hash on digest mismatch, and recompute the
URL.  `om` is the already dict-ified `old_maps`. -/
def buildEntry (ownerRepo title : String) (om : List Entry) (f : DiskFile) : Entry :=
  let e0 := (om.find? (fun e => decide (e.name = f.name))).getD (seedEntry f.name)
  let e1 := if e0.sha256 ≠ f.digest then
              { e0 with version := bump_minor e0.version, sha256 := f.digest }
            else e0
  { e1 with url := fileUrl ownerRepo title f }

/-- `current.get(title)` of the campaign loop. -/
def oldBlock (current : List Block) (title : String) : Option Block :=
  dictGet Block.title current title

/-- `old_maps`: the previous block's `maps` list as a dict keyed by name. -/
def oldMaps (current : List Block) (title : String) : List Entry :=
  pyDict Entry.name (((oldBlock current title).map Block.maps).getD [])

/-- `old_block.get("version", "1.0")`. -/
def oldVersion (current : List Block) (title : String) : String :=
  ((oldBlock current title).map Block.version).getD "1.0"

/-- The sorted file list of one campaign directory. -/
def sortedFiles (d : CampaignDir) : List DiskFile := pySorted fileLe d.files

/-- The entries built from the files found on disk, in sorted file order. -/
def fileEntries (ownerRepo : String) (om : List Entry) (d : CampaignDir) : List Entry :=
  (sortedFiles d).map (buildEntry ownerRepo d.title om)

/-- The values of `old_maps` after the per-file loop.  The loop mutates the
looked-up dict entries in place (`entry` aliases the dict value), so every
old entry whose name is found on disk ends up holding the freshly built
entry, while entries of gone files keep their stored values.  The later
campaign-bump comparison reads `old_maps.values()` AFTER the loop and
therefore sees these mutated values.  (File names within a directory are
unique on a filesystem, so the name lookup is unambiguous.) -/
def mutatedOldMaps (ownerRepo : String) (d : CampaignDir) (om : List Entry) : List Entry :=
  om.map (fun e =>
    match (sortedFiles d).find? (fun f => decide (f.name = e.name)) with
    | some f => buildEntry ownerRepo d.title om f
    | none => e)

/-- The `keep_release` resurrection: release-asset-flagged old entries whose
name is not among `names` (the names of the on-disk entries), kept verbatim
in dict order. -/
def resurrected (om : List Entry) (names : List String) : List Entry :=
  (om.filter (fun e => e.release_asset)).filter (fun e => decide (e.name ∉ names))

/-- The entry list before the final sort: on-disk entries, then resurrected
release-asset entries. -/
def preEntries (ownerRepo : String) (om : List Entry) (d : CampaignDir) : List Entry :=
  let fe := fileEntries ownerRepo om d
  fe ++ resurrected om (fe.map Entry.name)

/-- The campaign-changed test: entry counts differ, or some position of the
name-sorted new list and the name-sorted `old_maps.values()` list differs in
`sha256` or `version`.  Note that in the script the old values are read
after the loop mutated them, so the caller passes `mutatedOldMaps`. -/
def changedFlag (oldValues newEntries : List Entry) : Bool :=
  let old_sorted := pySorted nameLe oldValues
  decide (newEntries.length ≠ old_sorted.length) ||
    ((pySorted nameLe newEntries).zip old_sorted).any
      (fun p => decide (p.1.sha256 ≠ p.2.sha256) || decide (p.1.version ≠ p.2.version))

/-- One iteration of the campaign loop: the new block for directory `d`
computed against the previous manifest `current`.  The bump comparison runs
on the post-loop (mutated) `old_maps` values. -/
def processCampaign (ownerRepo : String) (current : List Block) (d : CampaignDir) : Block :=
  let om := oldMaps current d.title
  let entries := pySorted entryLe (preEntries ownerRepo om d)
  { title := d.title
    version :=
      if changedFlag (mutatedOldMaps ownerRepo d om) entries then
        bump_minor (oldVersion current d.title)
      else oldVersion current d.title
    asset := d.title ++ ".png"
    maps := entries }

/-- The whole reconciliation: one block per campaign directory, directories
in sorted order, against the parsed previous manifest `prev`. -/
def reconcile (ownerRepo : String) (prev : List Block) (dirs : List CampaignDir) : List Block :=
  (pySorted dirLe dirs).map (processCampaign ownerRepo prev)

/-- What the script finds at `maps.json`: no file, or a file whose text
`json.loads` either parses to a manifest or rejects as malformed. -/
inductive ManifestFile where
  | absent : ManifestFile
  | jsonOf : Except String (List Block) → ManifestFile

/-- `current = {...} if MAPS_JSON.exists() else {}`: a missing file yields the
empty manifest; the parse error of a present but malformed file is not caught
and aborts the script. -/
def loadCurrent : ManifestFile → Except String (List Block)
  | .absent => .ok []
  | .jsonOf (.ok m) => .ok m
  | .jsonOf (.error e) => .error e

/-- The whole run: load the previous manifest, then reconcile.  A load
failure aborts before anything is written. -/
def runScript (ownerRepo : String) (mf : ManifestFile) (dirs : List CampaignDir) :
    Except String (List Block) :=
  match loadCurrent mf with
  | .ok prev => .ok (reconcile ownerRepo prev dirs)
  | .error e => .error e

/-! ### Concrete fixtures used by counterexamples and witnesses -/

/-- C2 fixture: a campaign directory with one brand-new file. -/
def dirC2 : CampaignDir := ⟨"Camp", [⟨"new.SC2Map", false, "abc123", 7⟩]⟩

/-- C6 fixture: previous manifest tracking `a.SC2Map` at version 1.1. -/
def cmC6 : List Block :=
  [⟨"Camp", "1.1", "Camp.png", [⟨"a.SC2Map", "1.1", "deadbeef", "u", false⟩]⟩]

/-- C6 fixture: on disk, `a.SC2Map` was replaced by `b.SC2Map` with identical
content. -/
def dirC6 : CampaignDir := ⟨"Camp", [⟨"b.SC2Map", false, "deadbeef", 5⟩]⟩

/-- C10 fixture: two files whose names differ only in case. -/
def fileUpperA : DiskFile := ⟨"A.SC2Map", false, "h1", 1⟩

/-- C10 fixture: the lower-case sibling. -/
def fileLowerA : DiskFile := ⟨"a.SC2Map", false, "h2", 1⟩

/-- C3 fixture: previous manifest tracking two files. -/
def cmC3 : List Block :=
  [⟨"Camp", "1.4", "Camp.png",
    [⟨"keep.SC2Map", "1.1", "k1",
      "https://raw.githubusercontent.com/o/r/main/campaigns/Camp/keep.SC2Map", false⟩,
     ⟨"mod.SC2Map", "1.2", "m1",
      "https://raw.githubusercontent.com/o/r/main/campaigns/Camp/mod.SC2Map", false⟩]⟩]

/-- C3 fixture: `mod.SC2Map` changed content on disk, `keep.SC2Map` did not. -/
def dirC3 : CampaignDir :=
  ⟨"Camp", [⟨"keep.SC2Map", false, "k1", 9⟩, ⟨"mod.SC2Map", false, "m2", 9⟩]⟩

/-- C4 fixture: previous manifest with a flagged and an unflagged entry whose
files are both gone. -/
def cmC4 : List Block :=
  [⟨"Camp", "2.0", "Camp.png",
    [⟨"kept_asset.SC2Map", "1.3", "s1", "release/url", true⟩,
     ⟨"dropped.SC2Map", "1.2", "s2", "raw/url", false⟩,
     ⟨"still.SC2Map", "1.1", "s3",
      "https://raw.githubusercontent.com/o/r/main/campaigns/Camp/still.SC2Map", false⟩]⟩]

/-- C4 fixture: only `still.SC2Map` remains on disk. -/
def dirC4 : CampaignDir := ⟨"Camp", [⟨"still.SC2Map", false, "s3", 4⟩]⟩

/-- C1 fixture: a previous manifest with a release-asset entry whose file is
gone, plus a tracked mod. -/
def prevC1 : List Block :=
  [⟨"B Camp", "2.3", "B Camp.png",
    [⟨"gone.SC2Map", "1.5", "oldh", "oldu", true⟩,
     ⟨"y.SC2Map", "1.2", "h2", "uu", false⟩]⟩]

/-- C1 fixture: the scanned directories. -/
def dirsC1 : List CampaignDir :=
  [⟨"B Camp", [⟨"x_launcher.SC2Map", false, "h1", 1⟩, ⟨"y.SC2Map", false, "h2", 2⟩,
               ⟨"m.SC2Mod", true, "h3", 3⟩]⟩,
   ⟨"A Camp", [⟨"z.SC2Map", false, "h4", 4⟩]⟩]

/-- C10 witness fixture: two campaigns, enumerated in one order. -/
def dirsC10first : List CampaignDir :=
  [⟨"B Camp", [⟨"m1.SC2Map", false, "x1", 1⟩, ⟨"m2.SC2Map", false, "x2", 1⟩]⟩,
   ⟨"A Camp", [⟨"z.SC2Map", false, "x3", 1⟩]⟩]

/-- C10 witness fixture: the outer list permuted, files untouched. -/
def dirsC10mid : List CampaignDir :=
  [⟨"A Camp", [⟨"z.SC2Map", false, "x3", 1⟩]⟩,
   ⟨"B Camp", [⟨"m1.SC2Map", false, "x1", 1⟩, ⟨"m2.SC2Map", false, "x2", 1⟩]⟩]

/-- C10 witness fixture: additionally the files of one campaign permuted. -/
def dirsC10second : List CampaignDir :=
  [⟨"A Camp", [⟨"z.SC2Map", false, "x3", 1⟩]⟩,
   ⟨"B Camp", [⟨"m2.SC2Map", false, "x2", 1⟩, ⟨"m1.SC2Map", false, "x1", 1⟩]⟩]

/-! ### Order facts about the comparators -/

theorem charsLe_total (a b : List Char) : charsLe a b = true ∨ charsLe b a = true := by
  induction a generalizing b with
  | nil => exact Or.inl rfl
  | cons x xs ih =>
    cases b with
    | nil => exact Or.inr rfl
    | cons y ys =>
      simp only [charsLe]
      rcases lt_trichotomy x y with h | h | h
      · left; simp [h]
      · subst h; simpa [lt_irrefl] using ih ys
      · right; simp [h, lt_asymm h]

theorem charsLe_trans (a b c : List Char) (h₁ : charsLe a b = true)
    (h₂ : charsLe b c = true) : charsLe a c = true := by
  induction a generalizing b c with
  | nil => rfl
  | cons x xs ih =>
    cases b with
    | nil => simp [charsLe] at h₁
    | cons y ys =>
      cases c with
      | nil => simp [charsLe] at h₂
      | cons z zs =>
        simp only [charsLe] at h₁ h₂ ⊢
        rcases lt_trichotomy x y with hxy | hxy | hxy
        · rcases lt_trichotomy y z with hyz | hyz | hyz
          · simp [lt_trans hxy hyz]
          · subst hyz; simp [hxy]
          · simp [hyz, lt_asymm hyz] at h₂
        · subst hxy
          rcases lt_trichotomy x z with hxz | hxz | hxz
          · simp [hxz]
          · subst hxz
            simp only [lt_irrefl, if_false] at h₁ h₂ ⊢
            exact ih ys zs h₁ h₂
          · simp [hxz, lt_asymm hxz] at h₂
        · simp [hxy, lt_asymm hxy] at h₁

theorem charsLe_antisymm (a b : List Char) (h₁ : charsLe a b = true)
    (h₂ : charsLe b a = true) : a = b := by
  induction a generalizing b with
  | nil =>
    cases b with
    | nil => rfl
    | cons y ys => simp [charsLe] at h₂
  | cons x xs ih =>
    cases b with
    | nil => simp [charsLe] at h₁
    | cons y ys =>
      simp only [charsLe] at h₁ h₂
      rcases lt_trichotomy x y with h | h | h
      · simp [h, lt_asymm h] at h₂
      · subst h
        simp only [lt_irrefl, if_false] at h₁ h₂
        rw [ih ys h₁ h₂]
      · simp [h, lt_asymm h] at h₁

theorem strLe_total (s t : String) : strLe s t = true ∨ strLe t s = true :=
  charsLe_total s.data t.data

theorem strLe_trans {s t u : String} (h₁ : strLe s t = true) (h₂ : strLe t u = true) :
    strLe s u = true :=
  charsLe_trans s.data t.data u.data h₁ h₂

theorem strLe_antisymm {s t : String} (h₁ : strLe s t = true) (h₂ : strLe t s = true) :
    s = t := by
  cases s with
  | mk ds =>
    cases t with
    | mk dt => exact congrArg String.mk (charsLe_antisymm ds dt h₁ h₂)

theorem fileLe_total (a b : DiskFile) : fileLe a b = true ∨ fileLe b a = true :=
  strLe_total _ _

theorem fileLe_trans (a b c : DiskFile) (h₁ : fileLe a b = true) (h₂ : fileLe b c = true) :
    fileLe a c = true :=
  strLe_trans h₁ h₂

theorem fileLe_key {a b : DiskFile} (h₁ : fileLe a b = true) (h₂ : fileLe b a = true) :
    fileKey a = fileKey b :=
  strLe_antisymm h₁ h₂

theorem nameLe_total (a b : Entry) : nameLe a b = true ∨ nameLe b a = true :=
  strLe_total _ _

theorem nameLe_trans (a b c : Entry) (h₁ : nameLe a b = true) (h₂ : nameLe b c = true) :
    nameLe a c = true :=
  strLe_trans h₁ h₂

theorem nameLe_key {a b : Entry} (h₁ : nameLe a b = true) (h₂ : nameLe b a = true) :
    a.name = b.name :=
  strLe_antisymm h₁ h₂

theorem dirLe_total (a b : CampaignDir) : dirLe a b = true ∨ dirLe b a = true :=
  strLe_total _ _

theorem dirLe_trans (a b c : CampaignDir) (h₁ : dirLe a b = true) (h₂ : dirLe b c = true) :
    dirLe a c = true :=
  strLe_trans h₁ h₂

theorem dirLe_key {a b : CampaignDir} (h₁ : dirLe a b = true) (h₂ : dirLe b a = true) :
    a.title = b.title :=
  strLe_antisymm h₁ h₂

theorem entryLe_iff (a b : Entry) :
    entryLe a b = true ↔
      entryGroup a < entryGroup b ∨
        (entryGroup a = entryGroup b ∧ strLe (entryLowerName a) (entryLowerName b) = true) := by
  simp [entryLe]

theorem entryLe_total (a b : Entry) : entryLe a b = true ∨ entryLe b a = true := by
  rw [entryLe_iff, entryLe_iff]
  rcases Nat.lt_trichotomy (entryGroup a) (entryGroup b) with h | h | h
  · exact Or.inl (Or.inl h)
  · rcases strLe_total (entryLowerName a) (entryLowerName b) with hs | hs
    · exact Or.inl (Or.inr ⟨h, hs⟩)
    · exact Or.inr (Or.inr ⟨h.symm, hs⟩)
  · exact Or.inr (Or.inl h)

theorem entryLe_trans (a b c : Entry) (h₁ : entryLe a b = true) (h₂ : entryLe b c = true) :
    entryLe a c = true := by
  rw [entryLe_iff] at h₁ h₂ ⊢
  rcases h₁ with h₁ | ⟨h₁e, h₁s⟩
  · rcases h₂ with h₂ | ⟨h₂e, _⟩
    · exact Or.inl (h₁.trans h₂)
    · exact Or.inl (h₂e ▸ h₁)
  · rcases h₂ with h₂ | ⟨h₂e, h₂s⟩
    · exact Or.inl (h₁e ▸ h₂)
    · exact Or.inr ⟨h₁e.trans h₂e, strLe_trans h₁s h₂s⟩

/-! ### `pySorted`: permutation, sortedness, and uniqueness of key-distinct
sorted lists -/

theorem pySorted_perm (le : α → α → Bool) (l : List α) : (pySorted le l).Perm l :=
  List.perm_insertionSort _ l

theorem pySorted_sorted (le : α → α → Bool)
    (total : ∀ a b, le a b = true ∨ le b a = true)
    (htrans : ∀ a b c, le a b = true → le b c = true → le a c = true) (l : List α) :
    (pySorted le l).Pairwise (fun a b => le a b = true) := by
  haveI : IsTotal α (fun a b => le a b = true) := ⟨total⟩
  haveI : IsTrans α (fun a b => le a b = true) := ⟨htrans⟩
  exact List.sorted_insertionSort _ l

/-- Two sorted lists that are permutations of each other and have pairwise
distinct sort keys are equal. -/
theorem eq_of_perm_of_sortedKeys {α : Type u} {β : Type v} (le : α → α → Bool) (key : α → β)
    (anti : ∀ a b, le a b = true → le b a = true → key a = key b) :
    ∀ {l₁ l₂ : List α}, l₁.Perm l₂ → l₁.Pairwise (fun a b => le a b = true) →
      l₂.Pairwise (fun a b => le a b = true) → (l₁.map key).Nodup → l₁ = l₂ := by
  intro l₁
  induction l₁ with
  | nil =>
    intro l₂ hp _ _ _
    exact hp.nil_eq
  | cons a t ih =>
    intro l₂ hp hs₁ hs₂ hnd
    cases l₂ with
    | nil =>
      have := hp.length_eq
      simp at this
    | cons b t₂ =>
      by_cases hab : a = b
      · subst hab
        have hpt : t.Perm t₂ := hp.cons_inv
        have h₁ := List.pairwise_cons.mp hs₁
        have h₂ := List.pairwise_cons.mp hs₂
        have hnd' : (key a :: t.map key).Nodup := by rw [List.map_cons] at hnd; exact hnd
        rw [ih hpt h₁.2 h₂.2 (List.nodup_cons.mp hnd').2]
      · exfalso
        have hbt : b ∈ t := by
          rcases List.mem_cons.mp (hp.symm.subset (List.mem_cons_self b t₂)) with h | h
          · exact absurd h.symm hab
          · exact h
        have hat₂ : a ∈ t₂ := by
          rcases List.mem_cons.mp (hp.subset (List.mem_cons_self a t)) with h | h
          · exact absurd h hab
          · exact h
        have hle₁ : le a b = true := (List.pairwise_cons.mp hs₁).1 b hbt
        have hle₂ : le b a = true := (List.pairwise_cons.mp hs₂).1 a hat₂
        have hk : key a = key b := anti _ _ hle₁ hle₂
        have hnd' : (key a :: t.map key).Nodup := by rw [List.map_cons] at hnd; exact hnd
        have hnk : key a ∉ t.map key := (List.nodup_cons.mp hnd').1
        exact hnk (hk ▸ List.mem_map_of_mem key hbt)

/-- `pySorted` maps permuted key-distinct inputs to the same output. -/
theorem pySorted_congr_perm (le : α → α → Bool) (key : α → β)
    (anti : ∀ a b, le a b = true → le b a = true → key a = key b)
    (total : ∀ a b, le a b = true ∨ le b a = true)
    (htrans : ∀ a b c, le a b = true → le b c = true → le a c = true)
    {l₁ l₂ : List α} (hp : l₁.Perm l₂) (hnd : (l₁.map key).Nodup) :
    pySorted le l₁ = pySorted le l₂ := by
  refine eq_of_perm_of_sortedKeys le key anti
    (((pySorted_perm le l₁).trans hp).trans (pySorted_perm le l₂).symm)
    (pySorted_sorted le total htrans l₁) (pySorted_sorted le total htrans l₂) ?_
  exact (((pySorted_perm le l₁).map key).nodup_iff).mpr hnd

/-! ### Python dict lemmas -/

theorem dictInsert_map_key (key : α → String) (acc : List α) (x : α) :
    (dictInsert key acc x).map key =
      if acc.any (fun y => decide (key y = key x)) then acc.map key
      else acc.map key ++ [key x] := by
  unfold dictInsert
  split
  · rw [List.map_map]
    apply List.map_congr_left
    intro y _
    by_cases h : key y = key x
    · simp [Function.comp, h]
    · simp [Function.comp, h]
  · simp

theorem foldl_dictInsert_nodup (key : α → String) :
    ∀ (l acc : List α), ((acc.map key).Nodup) →
      (((l.foldl (dictInsert key) acc).map key).Nodup) := by
  intro l
  induction l with
  | nil => intro acc h; exact h
  | cons x t ih =>
    intro acc h
    rw [List.foldl_cons]
    apply ih
    rw [dictInsert_map_key]
    split
    · exact h
    · rename_i hany
      rw [List.nodup_append]
      refine ⟨h, List.nodup_singleton _, ?_⟩
      intro k hk hk1
      rcases List.mem_map.mp hk with ⟨y, hy, hyk⟩
      rcases List.mem_singleton.mp hk1 with rfl
      simp only [Bool.not_eq_true] at hany
      have hne := List.any_eq_false.mp hany y hy
      simp only [decide_eq_true_eq] at hne
      exact hne hyk

theorem mem_foldl_dictInsert (key : α → String) :
    ∀ (l acc : List α) (x : α), x ∈ l.foldl (dictInsert key) acc → x ∈ acc ∨ x ∈ l := by
  intro l
  induction l with
  | nil => intro acc x h; exact Or.inl h
  | cons y t ih =>
    intro acc x h
    rw [List.foldl_cons] at h
    rcases ih (dictInsert key acc y) x h with h' | h'
    · unfold dictInsert at h'
      split at h'
      · rcases List.mem_map.mp h' with ⟨z, hz, hzx⟩
        by_cases hk : key z = key y
        · simp only [hk, if_pos] at hzx
          exact Or.inr (hzx ▸ List.mem_cons_self y t)
        · simp only [hk, if_neg, not_false_iff] at hzx
          exact Or.inl (hzx ▸ hz)
      · rcases List.mem_append.mp h' with h'' | h''
        · exact Or.inl h''
        · have hxy := List.mem_singleton.mp h''
          exact Or.inr (by rw [hxy]; exact List.mem_cons_self y t)
    · exact Or.inr (List.mem_cons_of_mem y h')

theorem foldl_dictInsert_of_nodup (key : α → String) :
    ∀ (l acc : List α), (((acc ++ l).map key).Nodup) →
      l.foldl (dictInsert key) acc = acc ++ l := by
  intro l
  induction l with
  | nil => intro acc _; simp
  | cons x t ih =>
    intro acc h
    rw [List.foldl_cons]
    have hnotin : key x ∉ acc.map key := by
      intro hmem
      rw [List.map_append, List.nodup_append] at h
      exact h.2.2 hmem (by simp)
    have hins : dictInsert key acc x = acc ++ [x] := by
      unfold dictInsert
      rw [if_neg]
      intro hany
      rcases List.any_eq_true.mp hany with ⟨y, hy, hyk⟩
      simp only [decide_eq_true_eq] at hyk
      exact hnotin (hyk ▸ List.mem_map_of_mem key hy)
    rw [hins, ih (acc ++ [x]) (by simpa using h)]
    simp

theorem pyDict_key_nodup (key : α → String) (l : List α) :
    ((pyDict key l).map key).Nodup :=
  foldl_dictInsert_nodup key l [] (by simp)

theorem pyDict_eq_self (key : α → String) {l : List α} (h : (l.map key).Nodup) :
    pyDict key l = l := by
  have := foldl_dictInsert_of_nodup key l [] (by simpa using h)
  simpa using this

/-! ### `find?` by key -/

theorem find?_key_of_mem {β : Type v} [DecidableEq β] (key : α → β) {l : List α} {x : α}
    (hx : x ∈ l) (hnd : (l.map key).Nodup) :
    l.find? (fun y => decide (key y = key x)) = some x := by
  induction l with
  | nil => cases hx
  | cons a t ih =>
    have hnd' : (key a :: t.map key).Nodup := by rw [List.map_cons] at hnd; exact hnd
    by_cases h : key a = key x
    · have hax : x = a := by
        rcases List.mem_cons.mp hx with h' | h'
        · exact h'
        · exact absurd (h ▸ List.mem_map_of_mem key h') (List.nodup_cons.mp hnd').1
      subst hax
      rw [List.find?_cons_of_pos]
      simp
    · have hxt : x ∈ t := by
        rcases List.mem_cons.mp hx with h' | h'
        · exact absurd (h' ▸ rfl) h
        · exact h'
      rw [List.find?_cons_of_neg]
      · exact ih hxt (List.nodup_cons.mp hnd').2
      · simp [h]

/-! ### Pipeline lemmas -/

theorem bump_minor_ten : bump_minor "1.0" = "1.1" := by decide

theorem buildEntry_name (o t : String) (om : List Entry) (f : DiskFile) :
    (buildEntry o t om f).name = f.name := by
  unfold buildEntry
  cases hfind : om.find? (fun e => decide (e.name = f.name)) with
  | none =>
    simp only [hfind, Option.getD_none, seedEntry]
    split <;> rfl
  | some e =>
    have hname := List.find?_some hfind
    simp only [decide_eq_true_eq] at hname
    simp only [hfind, Option.getD_some]
    split <;> simp [hname]

theorem buildEntry_sha (o t : String) (om : List Entry) (f : DiskFile) :
    (buildEntry o t om f).sha256 = f.digest := by
  simp only [buildEntry]
  split
  · rfl
  · rename_i h
    simpa using of_not_not (by simpa using h)

theorem buildEntry_url (o t : String) (om : List Entry) (f : DiskFile) :
    (buildEntry o t om f).url = fileUrl o t f := rfl

theorem buildEntry_flag (o t : String) (om : List Entry) (f : DiskFile) :
    (buildEntry o t om f).release_asset =
      ((om.find? (fun e => decide (e.name = f.name))).getD (seedEntry f.name)).release_asset := by
  simp only [buildEntry]
  split <;> rfl

/-- A file whose old entry already carries the current digest and URL is
reproduced verbatim. -/
theorem buildEntry_of_match {o t : String} {om : List Entry} {f : DiskFile} {e : Entry}
    (hfind : om.find? (fun x => decide (x.name = f.name)) = some e)
    (hsha : e.sha256 = f.digest) (hurl : e.url = fileUrl o t f) :
    buildEntry o t om f = e := by
  unfold buildEntry
  rw [hfind]
  simp only [Option.getD_some, hsha]
  rw [if_neg (by simp)]
  cases e
  simp_all

/-- A file without a previous entry produces the seeded entry bumped once. -/
theorem buildEntry_of_new {o t : String} {om : List Entry} {f : DiskFile}
    (hfind : om.find? (fun x => decide (x.name = f.name)) = none)
    (hdig : f.digest ≠ "") :
    buildEntry o t om f =
      { name := f.name, version := "1.1", sha256 := f.digest,
        url := fileUrl o t f, release_asset := false } := by
  unfold buildEntry
  rw [hfind]
  simp only [Option.getD_none, seedEntry]
  rw [if_pos (by simpa using (Ne.symm hdig))]
  simp [bump_minor_ten]

/-- A file whose old entry's hash differs produces the bumped entry. -/
theorem buildEntry_of_change {o t : String} {om : List Entry} {f : DiskFile} {e : Entry}
    (hfind : om.find? (fun x => decide (x.name = f.name)) = some e)
    (hsha : e.sha256 ≠ f.digest) :
    buildEntry o t om f =
      { e with version := bump_minor e.version, sha256 := f.digest,
               url := fileUrl o t f } := by
  unfold buildEntry
  rw [hfind]
  simp only [Option.getD_some]
  rw [if_pos (by simpa using hsha)]

theorem fileEntries_names (o : String) (om : List Entry) (d : CampaignDir) :
    (fileEntries o om d).map Entry.name = (sortedFiles d).map DiskFile.name := by
  rw [fileEntries, List.map_map]
  exact List.map_congr_left fun f _ => buildEntry_name o d.title om f

theorem mem_resurrected {om : List Entry} {names : List String} {e : Entry} :
    e ∈ resurrected om names ↔ e ∈ om ∧ e.release_asset = true ∧ e.name ∉ names := by
  unfold resurrected
  simp only [List.mem_filter, decide_eq_true_eq]
  tauto

/-- Names of the pre-sort entry list are pairwise distinct when the old dict
and the discovered files have distinct names. -/
theorem preEntries_name_nodup {o : String} {om : List Entry} {d : CampaignDir}
    (hom : (om.map Entry.name).Nodup)
    (hfiles : ((sortedFiles d).map DiskFile.name).Nodup) :
    ((preEntries o om d).map Entry.name).Nodup := by
  unfold preEntries
  rw [List.map_append, List.nodup_append]
  refine ⟨by rw [fileEntries_names]; exact hfiles, ?_, ?_⟩
  · have hsub : List.Sublist (resurrected om ((fileEntries o om d).map Entry.name)) om :=
      (List.filter_sublist _).trans (List.filter_sublist _)
    exact hom.sublist (hsub.map Entry.name)
  · intro n hn hn2
    rcases List.mem_map.mp hn2 with ⟨e, he, hen⟩
    exact (mem_resurrected.mp he).2.2 (hen ▸ hn)

theorem zip_self {α : Type u} (l : List α) : l.zip l = l.map (fun x => (x, x)) := by
  induction l with
  | nil => rfl
  | cons a t ih => simp [ih]

/-- Comparing a list against itself reports no change. -/
theorem changedFlag_self (l : List Entry) : changedFlag l l = false := by
  unfold changedFlag
  have hlen : l.length = (pySorted nameLe l).length := (pySorted_perm nameLe l).symm.length_eq
  rw [Bool.or_eq_false_iff]
  constructor
  · simp [hlen]
  · rw [zip_self, List.any_eq_false]
    intro p hp
    rcases List.mem_map.mp hp with ⟨x, _, rfl⟩
    simp

/-! ### Version-string facts -/

theorem digitChar_isPyDigit : ∀ n, n < 10 → isPyDigit (digitChar n) = true := by decide

theorem pyDigitVal_digitChar : ∀ n, n < 10 → pyDigitVal (digitChar n) = n := by decide

theorem natOfDigits_append (xs : List Char) (c : Char) :
    natOfDigits (xs ++ [c]) = natOfDigits xs * 10 + pyDigitVal c := by
  unfold natOfDigits
  rw [List.foldl_append]
  rfl

theorem natReprAux_spec : ∀ (fuel n : Nat), n < fuel →
    (∀ c ∈ natReprAux fuel n, isPyDigit c = true) ∧ natReprAux fuel n ≠ [] ∧
      natOfDigits (natReprAux fuel n) = n := by
  intro fuel
  induction fuel with
  | zero => intro n h; omega
  | succ fl ih =>
    intro n h
    unfold natReprAux
    by_cases h10 : n < 10
    · rw [if_pos h10]
      refine ⟨?_, by simp, ?_⟩
      · intro c hc
        rcases List.mem_singleton.mp hc with rfl
        exact digitChar_isPyDigit n h10
      · unfold natOfDigits
        simp [pyDigitVal_digitChar n h10]
    · rw [if_neg h10]
      have hdiv : n / 10 < n := Nat.div_lt_self (by omega) (by omega)
      have hrec := ih (n / 10) (by omega)
      have hmod : n % 10 < 10 := Nat.mod_lt n (by omega)
      refine ⟨?_, by simp, ?_⟩
      · intro c hc
        rcases List.mem_append.mp hc with hc | hc
        · exact hrec.1 c hc
        · rcases List.mem_singleton.mp hc with rfl
          exact digitChar_isPyDigit _ hmod
      · rw [natOfDigits_append, hrec.2.2, pyDigitVal_digitChar _ hmod]
        omega

theorem natRepr_spec (n : Nat) :
    (∀ c ∈ (natRepr n).data, isPyDigit c = true) ∧ (natRepr n).data ≠ [] ∧
      natOfDigits (natRepr n).data = n :=
  natReprAux_spec (n + 1) n (Nat.lt_succ_self n)

theorem takeWhile_append_all (p : α → Bool) (xs : List α) (y : α) (ys : List α)
    (hxs : ∀ c ∈ xs, p c = true) (hy : p y = false) :
    (xs ++ y :: ys).takeWhile p = xs := by
  induction xs with
  | nil => simp [List.takeWhile, hy]
  | cons a t ih =>
    have ha : p a = true := hxs a (by simp)
    simp only [List.cons_append, List.takeWhile, ha]
    exact congrArg (fun l => a :: l) (ih (fun c hc => hxs c (List.mem_cons_of_mem a hc)))

theorem dropWhile_append_all (p : α → Bool) (xs : List α) (y : α) (ys : List α)
    (hxs : ∀ c ∈ xs, p c = true) (hy : p y = false) :
    (xs ++ y :: ys).dropWhile p = y :: ys := by
  induction xs with
  | nil => simp [List.dropWhile, hy]
  | cons a t ih =>
    have ha : p a = true := hxs a (by simp)
    simp only [List.cons_append, List.dropWhile, ha]
    exact ih (fun c hc => hxs c (List.mem_cons_of_mem a hc))

theorem span_digits_dot (xs ys : List Char) (hxs : ∀ c ∈ xs, isPyDigit c = true) :
    (xs ++ '.' :: ys).span (fun c => isPyDigit c) = (xs, '.' :: ys) := by
  rw [List.span_eq_take_drop]
  rw [takeWhile_append_all _ xs '.' ys hxs (by decide),
    dropWhile_append_all _ xs '.' ys hxs (by decide)]

theorem verStrip_canonical (maj minor : Nat) :
    verStrip (natRepr maj ++ "." ++ natRepr minor) =
      (natRepr maj).data ++ '.' :: (natRepr minor).data := by
  have hmin := natRepr_spec minor
  have hdata : (natRepr maj ++ "." ++ natRepr minor).data =
      (natRepr maj).data ++ '.' :: (natRepr minor).data := by
    simp
  have hne : ¬ (((natRepr maj).data ++ '.' :: (natRepr minor).data).getLast? =
      some '\x0a') := by
    intro hsome
    obtain ⟨b, bs, hy⟩ : ∃ b bs, (natRepr minor).data = b :: bs := by
      cases h : (natRepr minor).data with
      | nil => exact absurd h hmin.2.1
      | cons b bs => exact ⟨b, bs, rfl⟩
    rw [hy, List.getLast?_append_of_ne_nil _ (by simp)] at hsome
    have hmem : '\x0a' ∈ '.' :: b :: bs := by
      rcases List.mem_getLast?_eq_getLast (Option.mem_def.mpr hsome) with ⟨h', heq⟩
      exact heq ▸ List.getLast_mem h'
    rcases List.mem_cons.mp hmem with h1 | h2
    · exact absurd h1 (by decide)
    · exact absurd (hmin.1 _ (hy ▸ h2)) (by decide)
  unfold verStrip
  rw [hdata, if_neg hne]

theorem verMatch_canonical (maj minor : Nat) :
    verMatch (natRepr maj ++ "." ++ natRepr minor) = some (maj, minor) := by
  have hmaj := natRepr_spec maj
  have hmin := natRepr_spec minor
  unfold verMatch
  rw [verStrip_canonical, span_digits_dot _ _ hmaj.1]
  obtain ⟨a, as, hx⟩ : ∃ a as, (natRepr maj).data = a :: as := by
    cases h : (natRepr maj).data with
    | nil => exact absurd h hmaj.2.1
    | cons a as => exact ⟨a, as, rfl⟩
  obtain ⟨b, bs, hy⟩ : ∃ b bs, (natRepr minor).data = b :: bs := by
    cases h : (natRepr minor).data with
    | nil => exact absurd h hmin.2.1
    | cons b bs => exact ⟨b, bs, rfl⟩
  rw [hx, hy]
  have hcond : '.' = '.' ∧ (b :: bs) ≠ ([] : List Char) ∧
      (b :: bs).all (fun x => isPyDigit x) = true := by
    refine ⟨rfl, by simp, List.all_eq_true.mpr ?_⟩
    intro c hc
    exact hmin.1 c (hy ▸ hc)
  show (if '.' = '.' ∧ (b :: bs) ≠ ([] : List Char) ∧
      (b :: bs).all (fun x => isPyDigit x) = true then
      some (natOfDigits (a :: as), natOfDigits (b :: bs)) else none) = some (maj, minor)
  rw [if_pos hcond, ← hx, ← hy, hmaj.2.2, hmin.2.2]

theorem bump_minor_canonical (maj minor : Nat) :
    bump_minor (natRepr maj ++ "." ++ natRepr minor) =
      natRepr maj ++ "." ++ natRepr (minor + 1) := by
  have hne : natRepr maj ++ "." ++ natRepr minor ≠ "" := by
    intro h
    have hd : (natRepr maj ++ "." ++ natRepr minor).data = [] := by rw [h]
    simp at hd
  simp only [bump_minor, if_neg hne, verMatch_canonical]
  rfl

theorem bump_minor_of_invalid (s : String) (h : verMatch s = none) : bump_minor s = "1.1" := by
  by_cases hs : s = ""
  · subst hs; decide
  · simp only [bump_minor, if_neg hs, h]
    rfl

theorem bump_minor_of_match (s : String) (maj minor : Nat)
    (h : verMatch s = some (maj, minor)) :
    bump_minor s = natRepr maj ++ "." ++ natRepr (minor + 1) := by
  have hs : s ≠ "" := by
    intro he
    rw [he, (by decide : verMatch "" = none)] at h
    exact Option.noConfusion h
  simp only [bump_minor, if_neg hs, h]
  rfl

/-! ### Generic key lemmas -/

theorem mem_key_unique {β : Type v} (key : α → β) {l : List α} {x y : α}
    (hnd : (l.map key).Nodup) (hx : x ∈ l) (hy : y ∈ l) (hk : key x = key y) : x = y := by
  induction l with
  | nil => cases hx
  | cons a t ih =>
    have hnd' : (key a :: t.map key).Nodup := by rw [List.map_cons] at hnd; exact hnd
    have hha := (List.nodup_cons.mp hnd').1
    rcases List.mem_cons.mp hx with hx1 | hx1 <;> rcases List.mem_cons.mp hy with hy1 | hy1
    · rw [hx1, hy1]
    · subst hx1
      exact absurd (hk ▸ List.mem_map_of_mem key hy1) hha
    · subst hy1
      exact absurd (hk ▸ List.mem_map_of_mem key hx1) hha
    · exact ih (List.nodup_cons.mp hnd').2 hx1 hy1

theorem filter_key_eq_singleton {β : Type v} [DecidableEq β] (key : α → β) {l : List α} {x : α}
    (hx : x ∈ l) (hnd : (l.map key).Nodup) :
    l.filter (fun y => decide (key y = key x)) = [x] := by
  induction l with
  | nil => cases hx
  | cons a t ih =>
    have hnd' : (key a :: t.map key).Nodup := by rw [List.map_cons] at hnd; exact hnd
    by_cases h : key a = key x
    · have hax : x = a := by
        rcases List.mem_cons.mp hx with h' | h'
        · exact h'
        · exact absurd (h ▸ List.mem_map_of_mem key h') (List.nodup_cons.mp hnd').1
      subst hax
      rw [List.filter_cons_of_pos (by simp)]
      have : t.filter (fun y => decide (key y = key x)) = [] := by
        rw [List.filter_eq_nil_iff]
        intro b hb hkb
        simp only [decide_eq_true_eq] at hkb
        exact (List.nodup_cons.mp hnd').1 (hkb ▸ List.mem_map_of_mem key hb)
      rw [this]
    · have hxt : x ∈ t := by
        rcases List.mem_cons.mp hx with h' | h'
        · exact absurd (h' ▸ rfl) h
        · exact h'
      rw [List.filter_cons_of_neg (by simp [h])]
      exact ih hxt (List.nodup_cons.mp hnd').2

/-- Lists of equal length have a mismatching zip position iff their
version-and-hash projections differ. -/
theorem zip_any_sig : ∀ (l₁ l₂ : List Entry), l₁.length = l₂.length →
    (((l₁.zip l₂).any fun p =>
        decide (p.1.sha256 ≠ p.2.sha256) || decide (p.1.version ≠ p.2.version)) = true ↔
      l₁.map (fun e => (e.version, e.sha256)) ≠ l₂.map (fun e => (e.version, e.sha256))) := by
  intro l₁
  induction l₁ with
  | nil =>
    intro l₂ h
    cases l₂ with
    | nil => simp
    | cons b t => simp at h
  | cons a t ih =>
    intro l₂ h
    cases l₂ with
    | nil => simp at h
    | cons b t₂ =>
      simp only [List.zip_cons_cons, List.any_cons, List.map_cons, Bool.or_eq_true,
        decide_eq_true_eq, ne_eq, List.cons.injEq, Prod.mk.injEq, not_and]
      have hih := ih t₂ (by simpa using h)
      simp only [ne_eq] at hih
      rw [hih]
      tauto

/-- `changedFlag` holds iff the name-sorted version-and-hash sequences
differ. -/
theorem changedFlag_iff (om new : List Entry) :
    changedFlag om new = true ↔
      (pySorted nameLe new).map (fun e => (e.version, e.sha256)) ≠
        (pySorted nameLe om).map (fun e => (e.version, e.sha256)) := by
  unfold changedFlag
  by_cases hlen : new.length = (pySorted nameLe om).length
  · have hlen2 : (pySorted nameLe new).length = (pySorted nameLe om).length :=
      (pySorted_perm nameLe new).length_eq.trans hlen
    rw [Bool.or_eq_true]
    constructor
    · intro hor
      rcases hor with hc | hc
      · simp [hlen] at hc
      · exact (zip_any_sig _ _ hlen2).mp hc
    · intro hne
      exact Or.inr ((zip_any_sig _ _ hlen2).mpr hne)
  · constructor
    · intro _
      intro heq
      have := congrArg List.length heq
      simp only [List.length_map] at this
      exact hlen ((pySorted_perm nameLe new).length_eq.symm.trans this)
    · intro _
      rw [Bool.or_eq_true]
      exact Or.inl (by simp [hlen])

theorem Block_ext {b₁ b₂ : Block} (h1 : b₁.title = b₂.title) (h2 : b₁.version = b₂.version)
    (h3 : b₁.asset = b₂.asset) (h4 : b₁.maps = b₂.maps) : b₁ = b₂ := by
  cases b₁; cases b₂; simp_all

/-! ### C9: invalid-version normalization (corrected) -/

/-- C9 counterexample: the claim says every version string that is not of the
digits-dot-digits form is treated as "1.0" and so bumps to "1.1", but
`VER_RE`'s `$` also matches just before a newline that ends the string: the
string `"1.2\n"` is not of the claimed format — `claimedVerFormat` is its
reading, and the string's last character is a newline, not a digit — yet it
parses as `(1, 2)` and bumps to "1.3", not "1.1". -/
theorem claim_C9_counterexample :
    claimedVerFormat "1.2\x0a" = false ∧
    verMatch "1.2\x0a" = some (1, 2) ∧
    bump_minor "1.2\x0a" = "1.3" := by
  refine ⟨by decide, by decide, by decide⟩

/-- C9 amended: `bump_minor` yields "1.1" exactly on the strings rejected by
`VER_RE.match` — the empty string and everything that is not digits `.`
digits (Unicode decimal digits) up to one trailing newline; every string the
pattern does match, trailing-newline and non-ASCII-digit cases included,
bumps to `maj.(minor+1)` rendered in ASCII; and every canonical `maj.minor`
matches with the two numbers as its groups. -/
theorem claim_C9_amended :
    (∀ s : String, verMatch s = none → bump_minor s = "1.1") ∧
    (∀ s : String, ∀ maj minor : Nat, verMatch s = some (maj, minor) →
      bump_minor s = natRepr maj ++ "." ++ natRepr (minor + 1)) ∧
    (∀ maj minor : Nat,
      verMatch (natRepr maj ++ "." ++ natRepr minor) = some (maj, minor)) :=
  ⟨bump_minor_of_invalid, bump_minor_of_match, verMatch_canonical⟩

/-- C9 witness at the concrete inputs "garbage", "1.2\n" and "2.7". -/
theorem claim_C9_witness :
    bump_minor "garbage" = "1.1" ∧ bump_minor "1.2\x0a" = "1.3" ∧
    verMatch "2.7" = some (2, 7) := by
  refine ⟨claim_C9_amended.1 "garbage" (by decide), ?_, ?_⟩
  · have h := claim_C9_amended.2.1 "1.2\x0a" 1 2 (by decide)
    have e : natRepr 1 ++ "." ++ natRepr (2 + 1) = "1.3" := by decide
    rw [e] at h
    exact h
  · have h := claim_C9_amended.2.2 2 7
    have e : natRepr 2 ++ "." ++ natRepr 7 = "2.7" := by decide
    rw [e] at h
    exact h

/-! ### C8: missing versus malformed previous manifest -/

/-- C8 counterexample: a present but malformed `maps.json` is NOT treated as
an empty manifest — the `json.loads` error propagates and the run aborts,
instead of continuing with the empty-manifest result. -/
theorem claim_C8_counterexample :
    runScript "owner/repo" (.jsonOf (.error "Expecting value: line 1 column 1 (char 0)")) [] =
      .error "Expecting value: line 1 column 1 (char 0)" ∧
    runScript "owner/repo" (.jsonOf (.error "Expecting value: line 1 column 1 (char 0)")) [] ≠
      .ok (reconcile "owner/repo" [] []) := by
  refine ⟨rfl, ?_⟩
  intro h
  exact Except.noConfusion h

/-- C8 amended: only a missing `maps.json` is treated as the empty manifest
(and the run continues); a present but malformed one aborts the run with the
parse error. -/
theorem claim_C8_amended :
    (∀ (o : String) (dirs : List CampaignDir),
      runScript o .absent dirs = .ok (reconcile o [] dirs)) ∧
    (∀ (o e : String) (dirs : List CampaignDir),
      runScript o (.jsonOf (.error e)) dirs = .error e) :=
  ⟨fun _ _ => rfl, fun _ _ _ => rfl⟩

/-! ### C7: no oversized-file handling exists -/

/-- C7 counterexample: there is no size threshold — however large the single
discovered file is, its entry never carries the release-asset flag (and, as
the amended theorem shows, its URL is always the raw-content one). -/
theorem claim_C7_counterexample :
    ¬ ∃ threshold : Nat, ∀ size : Nat, threshold < size →
      ∃ e ∈ (processCampaign "owner/repo" []
          ⟨"Camp", [⟨"big.SC2Map", false, "aa", size⟩]⟩).maps,
        e.release_asset = true := by
  rintro ⟨threshold, h⟩
  rcases h (threshold + 1) (by omega) with ⟨e, he, hflag⟩
  have hmaps : ∀ size : Nat,
      (processCampaign "owner/repo" []
        ⟨"Camp", [⟨"big.SC2Map", false, "aa", size⟩]⟩).maps =
      [{ name := "big.SC2Map", version := "1.1", sha256 := "aa",
         url := "https://raw.githubusercontent.com/owner/repo/main/campaigns/Camp/big.SC2Map",
         release_asset := false }] := fun _ => rfl
  rw [hmaps (threshold + 1)] at he
  rcases List.mem_singleton.mp he with rfl
  simp at hflag

/-- C7 amended: the URL of every on-disk entry is recomputed as the raw
base plus the percent-encoded repository-relative path regardless of size,
and the release-asset flag of an entry with no previous entry of the same
name is false (flags only persist from the previous manifest). -/
theorem claim_C7_amended (o t : String) (om : List Entry) (f : DiskFile) :
    (buildEntry o t om f).url = RAW_BASE o ++ quote (relPath t f) ∧
    (om.find? (fun e => decide (e.name = f.name)) = none →
      (buildEntry o t om f).release_asset = false) := by
  refine ⟨buildEntry_url o t om f, ?_⟩
  intro hfind
  rw [buildEntry_flag, hfind]
  rfl

/-- C7 witness: the amended statement at a concrete oversized file. -/
theorem claim_C7_witness :
    (buildEntry "owner/repo" "Camp" [] ⟨"big file.SC2Map", false, "aa", 3000000000⟩).url =
      RAW_BASE "owner/repo" ++ quote (relPath "Camp" ⟨"big file.SC2Map", false, "aa", 3000000000⟩) ∧
    (buildEntry "owner/repo" "Camp" [] ⟨"big file.SC2Map", false, "aa", 3000000000⟩).release_asset
      = false := by
  have h := claim_C7_amended "owner/repo" "Camp" []
    ⟨"big file.SC2Map", false, "aa", 3000000000⟩
  exact ⟨h.1, h.2 (by decide)⟩

/-! ### C5: launcher-first ordering -/

/-- C5: in every emitted block, every entry whose name contains "launcher"
(case-insensitively) precedes every entry whose name does not, and within
each of the two groups entries are in lexicographic order of their lowered
names; together with the spec's concrete three-file example. -/
theorem claim_C5_ordering :
    (∀ (o : String) (cm : List Block) (d : CampaignDir),
      (processCampaign o cm d).maps.Pairwise (fun a b =>
        (hasLauncher b = true → hasLauncher a = true) ∧
        (hasLauncher a = hasLauncher b →
          strLe (pyLower a.name) (pyLower b.name) = true))) ∧
    (processCampaign "o/r" []
        ⟨"Camp", [⟨"beta.SC2Map", false, "h1", 1⟩, ⟨"alpha_launcher.SC2Map", false, "h2", 1⟩,
                  ⟨"gamma.SC2Map", false, "h3", 1⟩]⟩).maps.map Entry.name =
      ["alpha_launcher.SC2Map", "beta.SC2Map", "gamma.SC2Map"] := by
  constructor
  · intro o cm d
    have hs := pySorted_sorted entryLe entryLe_total entryLe_trans
      (preEntries o (oldMaps cm d.title) d)
    have hrw : (processCampaign o cm d).maps =
        pySorted entryLe (preEntries o (oldMaps cm d.title) d) := rfl
    rw [hrw]
    refine hs.imp ?_
    intro a b hab
    rw [entryLe_iff] at hab
    constructor
    · intro hb
      rcases hab with h | ⟨h, _⟩
      · exfalso
        unfold entryGroup at h
        rw [if_pos hb] at h
        omega
      · unfold entryGroup at h
        rw [if_pos hb] at h
        by_cases hha : hasLauncher a = true
        · exact hha
        · rw [if_neg hha] at h
          omega
    · intro heq
      rcases hab with h | ⟨_, h⟩
      · exact absurd h (by unfold entryGroup; rw [heq]; exact lt_irrefl _)
      · exact h
  · decide

/-! ### C6: campaign version bump condition -/

/-- C6 counterexample: on disk, `a.SC2Map` (tracked at version 1.1, hash
deadbeef) was replaced by the differently named `b.SC2Map` with identical
content, whose new entry ends at the same version and hash.  An entry was
added and one removed, yet the campaign version does NOT advance, because
the bump comparison inspects only the name-sorted version-and-hash pairs
and ignores names. -/
theorem claim_C6_counterexample :
    (processCampaign "o/r" cmC6 dirC6).maps.map Entry.name = ["b.SC2Map"] ∧
    (oldMaps cmC6 "Camp").map Entry.name = ["a.SC2Map"] ∧
    oldVersion cmC6 "Camp" = "1.1" ∧
    (processCampaign "o/r" cmC6 dirC6).version = "1.1" :=
  ⟨by decide, by decide, by decide, by decide⟩

/-- C6 amended: the campaign version advances by exactly one increment iff
the name-sorted sequence of (version, sha256) pairs of the new entry list
differs from that of the previous entry list (in particular iff the entry
counts differ or some aligned pair differs); entry names are not compared,
so a pure rename that reproduces the same version and hash does not bump. -/
theorem claim_C6_amended (o : String) (cm : List Block) (d : CampaignDir) :
    (processCampaign o cm d).version =
      if (pySorted nameLe (processCampaign o cm d).maps).map (fun e => (e.version, e.sha256)) ≠
          (pySorted nameLe (mutatedOldMaps o d (oldMaps cm d.title))).map
            (fun e => (e.version, e.sha256))
      then bump_minor (oldVersion cm d.title)
      else oldVersion cm d.title := by
  have hv : (processCampaign o cm d).version =
      if changedFlag (mutatedOldMaps o d (oldMaps cm d.title))
          (pySorted entryLe (preEntries o (oldMaps cm d.title) d)) then
        bump_minor (oldVersion cm d.title)
      else oldVersion cm d.title := rfl
  have hm : (processCampaign o cm d).maps =
      pySorted entryLe (preEntries o (oldMaps cm d.title) d) := rfl
  rw [hv, hm]
  by_cases hch : changedFlag (mutatedOldMaps o d (oldMaps cm d.title))
      (pySorted entryLe (preEntries o (oldMaps cm d.title) d)) = true
  · rw [if_pos hch, if_pos ((changedFlag_iff _ _).mp hch)]
  · have hne : ¬ ((pySorted nameLe
          (pySorted entryLe (preEntries o (oldMaps cm d.title) d))).map
            (fun e => (e.version, e.sha256)) ≠
        (pySorted nameLe (mutatedOldMaps o d (oldMaps cm d.title))).map
          (fun e => (e.version, e.sha256))) :=
      fun hx => hch ((changedFlag_iff _ _).mpr hx)
    rw [if_neg hch, if_neg hne]

/-! ### C2: addition of a new file -/

/-- C2 counterexample: a brand-new file's entry is emitted at version "1.1",
not at the baseline "1.0" the claim states: the entry is seeded at "1.0"
with an empty hash, and the seeded hash never equals the computed digest,
so the very first run already bumps it. -/
theorem claim_C2_counterexample :
    (processCampaign "o/r" [] dirC2).maps.map (fun e => (e.name, e.version)) =
      [("new.SC2Map", "1.1")] ∧
    ∀ e ∈ (processCampaign "o/r" [] dirC2).maps, e.version ≠ "1.0" :=
  ⟨by decide, by decide⟩

/-- C2 amended: a discovered file with no previous entry of its name yields
exactly one new entry, seeded at the baseline "1.0" with empty hash and
therefore emitted at the once-bumped version "1.1" with the computed digest
and recomputed URL; and when additionally every previously tracked entry
still has its file on disk, the campaign version advances by exactly one
increment. -/
theorem claim_C2_amended (o : String) (cm : List Block) (d : CampaignDir) (f : DiskFile)
    (hf : f ∈ d.files)
    (hnodup : (d.files.map DiskFile.name).Nodup)
    (hnew : (oldMaps cm d.title).find? (fun e => decide (e.name = f.name)) = none)
    (hdig : f.digest ≠ "")
    (hold : ∀ e ∈ oldMaps cm d.title, e.name ∈ d.files.map DiskFile.name) :
    (processCampaign o cm d).maps.filter (fun e => decide (e.name = f.name)) =
      [{ name := f.name, version := "1.1", sha256 := f.digest,
         url := fileUrl o d.title f, release_asset := false }] ∧
    (processCampaign o cm d).version = bump_minor (oldVersion cm d.title) := by
  have hperm_names : ((sortedFiles d).map DiskFile.name).Perm (d.files.map DiskFile.name) :=
    (pySorted_perm fileLe d.files).map DiskFile.name
  have hsnodup : ((sortedFiles d).map DiskFile.name).Nodup := hperm_names.nodup_iff.mpr hnodup
  have hfs : f ∈ sortedFiles d := (pySorted_perm fileLe d.files).mem_iff.mpr hf
  have hfname : f.name ∉ (oldMaps cm d.title).map Entry.name := by
    intro hmem
    rcases List.mem_map.mp hmem with ⟨e, he, hen⟩
    have hno := List.find?_eq_none.mp hnew e he
    simp only [decide_eq_true_eq] at hno
    exact hno hen
  have hres : resurrected (oldMaps cm d.title)
      ((fileEntries o (oldMaps cm d.title) d).map Entry.name) = [] := by
    unfold resurrected
    rw [List.filter_eq_nil_iff]
    intro e he hdec
    have he' : e ∈ oldMaps cm d.title := (List.mem_filter.mp he).1
    rw [fileEntries_names] at hdec
    simp only [decide_eq_true_eq] at hdec
    exact hdec (hperm_names.mem_iff.mpr (hold e he'))
  have hpre : preEntries o (oldMaps cm d.title) d = fileEntries o (oldMaps cm d.title) d := by
    simp only [preEntries]
    rw [hres, List.append_nil]
  have hfilter_fe : (fileEntries o (oldMaps cm d.title) d).filter
      (fun e => decide (e.name = f.name)) =
      [buildEntry o d.title (oldMaps cm d.title) f] := by
    unfold fileEntries
    rw [List.filter_map]
    have hcong : (sortedFiles d).filter
        ((fun e => decide (e.name = f.name)) ∘ buildEntry o d.title (oldMaps cm d.title)) =
        (sortedFiles d).filter (fun g => decide (g.name = f.name)) := by
      apply List.filter_congr
      intro g _
      simp [Function.comp, buildEntry_name]
    rw [hcong]
    rw [filter_key_eq_singleton DiskFile.name hfs hsnodup]
    rfl
  have hmaps : (processCampaign o cm d).maps =
      pySorted entryLe (preEntries o (oldMaps cm d.title) d) := rfl
  constructor
  · have hpfilter : ((processCampaign o cm d).maps.filter
        (fun e => decide (e.name = f.name))).Perm
        [buildEntry o d.title (oldMaps cm d.title) f] := by
      rw [hmaps]
      have hp := (pySorted_perm entryLe (preEntries o (oldMaps cm d.title) d)).filter
        (fun e => decide (e.name = f.name))
      have heq : (preEntries o (oldMaps cm d.title) d).filter
          (fun e => decide (e.name = f.name)) =
          [buildEntry o d.title (oldMaps cm d.title) f] := by
        rw [hpre]
        exact hfilter_fe
      exact heq ▸ hp
    rw [List.perm_singleton.mp hpfilter]
    rw [buildEntry_of_new hnew hdig]
  · have hom_nodup : ((oldMaps cm d.title).map Entry.name).Nodup := by
      unfold oldMaps
      exact pyDict_key_nodup Entry.name _
    have hcons_nodup : (f.name :: (oldMaps cm d.title).map Entry.name).Nodup :=
      List.nodup_cons.mpr ⟨hfname, hom_nodup⟩
    have hcons_sub : (f.name :: (oldMaps cm d.title).map Entry.name) ⊆
        d.files.map DiskFile.name := by
      intro x hx
      rcases List.mem_cons.mp hx with hx | hx
      · exact hx ▸ List.mem_map_of_mem DiskFile.name hf
      · rcases List.mem_map.mp hx with ⟨e, he, hen⟩
        exact hen ▸ hold e he
    have hlen : (oldMaps cm d.title).length + 1 ≤ d.files.length := by
      have := (hcons_nodup.subperm hcons_sub).length_le
      simp only [List.length_cons, List.length_map] at this
      omega
    have hchanged : changedFlag (mutatedOldMaps o d (oldMaps cm d.title))
        (pySorted entryLe (preEntries o (oldMaps cm d.title) d)) = true := by
      unfold changedFlag
      rw [Bool.or_eq_true]
      left
      simp only [decide_eq_true_eq]
      have l1 : (pySorted entryLe (preEntries o (oldMaps cm d.title) d)).length =
          d.files.length := by
        rw [(pySorted_perm entryLe _).length_eq, hpre]
        unfold fileEntries
        rw [List.length_map]
        unfold sortedFiles
        rw [(pySorted_perm fileLe d.files).length_eq]
      have l2 : (pySorted nameLe (mutatedOldMaps o d (oldMaps cm d.title))).length =
          (oldMaps cm d.title).length := by
        rw [(pySorted_perm nameLe _).length_eq]
        unfold mutatedOldMaps
        rw [List.length_map]
      omega
    have hv : (processCampaign o cm d).version =
        if changedFlag (mutatedOldMaps o d (oldMaps cm d.title))
            (pySorted entryLe (preEntries o (oldMaps cm d.title) d)) then
          bump_minor (oldVersion cm d.title)
        else oldVersion cm d.title := rfl
    rw [hv, if_pos hchanged]

/-- C2 witness: the amended statement at the concrete one-new-file fixture. -/
theorem claim_C2_witness :
    (processCampaign "o/r" [] dirC2).maps.filter
        (fun e => decide (e.name = "new.SC2Map")) =
      [{ name := "new.SC2Map", version := "1.1", sha256 := "abc123",
         url := fileUrl "o/r" "Camp" ⟨"new.SC2Map", false, "abc123", 7⟩,
         release_asset := false }] ∧
    (processCampaign "o/r" [] dirC2).version = bump_minor (oldVersion [] "Camp") :=
  claim_C2_amended "o/r" [] dirC2 ⟨"new.SC2Map", false, "abc123", 7⟩
    (by decide) (by decide) (by decide) (by decide) (by decide)

/-! ### C4: retention of release-asset entries -/

/-- C4: a previously tracked entry whose file is no longer discovered is
dropped from the new block, unless its release-asset flag is set, in which
case it appears in the new block with all of its fields exactly as stored. -/
theorem claim_C4_retention (o : String) (cm : List Block) (d : CampaignDir) (e : Entry)
    (hmem : e ∈ oldMaps cm d.title)
    (hgone : e.name ∉ d.files.map DiskFile.name) :
    (e.release_asset = true → e ∈ (processCampaign o cm d).maps) ∧
    (e.release_asset = false → ∀ x ∈ (processCampaign o cm d).maps, x.name ≠ e.name) := by
  have hperm_names : ((sortedFiles d).map DiskFile.name).Perm (d.files.map DiskFile.name) :=
    (pySorted_perm fileLe d.files).map DiskFile.name
  have hmaps : (processCampaign o cm d).maps =
      pySorted entryLe (preEntries o (oldMaps cm d.title) d) := rfl
  have hpre_eq : preEntries o (oldMaps cm d.title) d =
      fileEntries o (oldMaps cm d.title) d ++
        resurrected (oldMaps cm d.title)
          ((fileEntries o (oldMaps cm d.title) d).map Entry.name) := rfl
  have hgone' : e.name ∉ (fileEntries o (oldMaps cm d.title) d).map Entry.name := by
    rw [fileEntries_names]
    intro hx
    exact hgone (hperm_names.mem_iff.mp hx)
  constructor
  · intro hflag
    have hresur : e ∈ resurrected (oldMaps cm d.title)
        ((fileEntries o (oldMaps cm d.title) d).map Entry.name) :=
      mem_resurrected.mpr ⟨hmem, hflag, hgone'⟩
    rw [hmaps]
    refine (pySorted_perm entryLe _).mem_iff.mpr ?_
    rw [hpre_eq]
    exact List.mem_append.mpr (Or.inr hresur)
  · intro hflag x hx hname
    rw [hmaps] at hx
    have hx' : x ∈ preEntries o (oldMaps cm d.title) d :=
      (pySorted_perm entryLe _).mem_iff.mp hx
    rw [hpre_eq] at hx'
    rcases List.mem_append.mp hx' with hfe | hres
    · refine hgone' ?_
      rw [← hname]
      exact List.mem_map_of_mem Entry.name hfe
    · have hprops := mem_resurrected.mp hres
      have hom_nodup : ((oldMaps cm d.title).map Entry.name).Nodup := by
        unfold oldMaps
        exact pyDict_key_nodup Entry.name _
      have hxe : x = e := mem_key_unique Entry.name hom_nodup hprops.1 hmem hname
      rw [hxe] at hprops
      rw [hprops.2.1] at hflag
      exact Bool.noConfusion hflag

/-- C4 witness: in the concrete fixture, the flagged `kept_asset.SC2Map`
entry is carried over verbatim and the unflagged `dropped.SC2Map` entry
disappears. -/
theorem claim_C4_witness :
    ((⟨"kept_asset.SC2Map", "1.3", "s1", "release/url", true⟩ : Entry) ∈
      (processCampaign "o/r" cmC4 dirC4).maps) ∧
    (∀ x ∈ (processCampaign "o/r" cmC4 dirC4).maps, x.name ≠ "dropped.SC2Map") := by
  constructor
  · exact (claim_C4_retention "o/r" cmC4 dirC4
      ⟨"kept_asset.SC2Map", "1.3", "s1", "release/url", true⟩
      (by decide) (by decide)).1 rfl
  · intro x hx
    exact (claim_C4_retention "o/r" cmC4 dirC4
      ⟨"dropped.SC2Map", "1.2", "s2", "raw/url", false⟩
      (by decide) (by decide)).2 rfl x hx

/-! ### C3: modification of one tracked file -/

/-- C3 failing input: in the fixture, `mod.SC2Map` changed content (stored
hash `m1`, on-disk digest `m2`) while `keep.SC2Map` is unchanged.  The
entry itself is updated as claimed — new hash stored, entry version bumped
from "1.2" to "1.3" — and the unrelated entry is untouched, but the
campaign version stays at "1.4": the bump comparison reads
`old_maps.values()` after the loop mutated the looked-up entries in place,
so the old hash is gone and no difference is ever seen.  This contradicts
the claim and the script docstring, which promises that the campaign minor
version bumps whenever an entry changed. -/
theorem claim_C3_code_bug :
    (processCampaign "o/r" cmC3 dirC3).maps.filter
        (fun e => decide (e.name = "mod.SC2Map")) =
      [{ name := "mod.SC2Map", version := "1.3", sha256 := "m2",
         url := "https://raw.githubusercontent.com/o/r/main/campaigns/Camp/mod.SC2Map",
         release_asset := false }] ∧
    ((⟨"keep.SC2Map", "1.1", "k1",
      "https://raw.githubusercontent.com/o/r/main/campaigns/Camp/keep.SC2Map", false⟩ : Entry) ∈
      (processCampaign "o/r" cmC3 dirC3).maps) ∧
    oldVersion cmC3 "Camp" = "1.4" ∧
    (processCampaign "o/r" cmC3 dirC3).version = "1.4" :=
  ⟨by decide, by decide, by decide, by decide⟩

/-! ### C1: idempotence -/

theorem resurrected_append (l₁ l₂ : List Entry) (names : List String) :
    resurrected (l₁ ++ l₂) names = resurrected l₁ names ++ resurrected l₂ names := by
  unfold resurrected
  rw [List.filter_append, List.filter_append]

theorem resurrected_eq_nil {l : List Entry} {names : List String}
    (h : ∀ x ∈ l, x.name ∈ names) : resurrected l names = [] := by
  unfold resurrected
  rw [List.filter_eq_nil_iff]
  intro x hx hdec
  simp only [decide_eq_true_eq] at hdec
  exact hdec (h x (List.mem_filter.mp hx).1)

theorem resurrected_eq_self {l : List Entry} {names : List String}
    (hflag : ∀ x ∈ l, x.release_asset = true) (hq : ∀ x ∈ l, x.name ∉ names) :
    resurrected l names = l := by
  unfold resurrected
  have h1 : l.filter (fun e => e.release_asset) = l :=
    List.filter_eq_self.mpr (fun a ha => hflag a ha)
  rw [h1]
  exact List.filter_eq_self.mpr (fun a ha => by simpa using hq a ha)

/-- In a duplicate-free list, two distinct members appear in one order or
the other. -/
theorem pair_sublist_total {α : Type u} {l : List α} {x y : α}
    (hx : x ∈ l) (hy : y ∈ l) (hxy : x ≠ y) : [x, y].Sublist l ∨ [y, x].Sublist l := by
  induction l with
  | nil => cases hx
  | cons a t ih =>
    by_cases hxa : x = a
    · have hyt : y ∈ t := by
        rcases List.mem_cons.mp hy with h | h
        · exact absurd (hxa.trans h.symm) hxy
        · exact h
      left
      rw [hxa]
      exact List.Sublist.cons₂ a (List.singleton_sublist.mpr hyt)
    · by_cases hya : y = a
      · have hxt : x ∈ t := by
          rcases List.mem_cons.mp hx with h | h
          · exact absurd h hxa
          · exact h
        right
        rw [hya]
        exact List.Sublist.cons₂ a (List.singleton_sublist.mpr hxt)
      · have hxt : x ∈ t := by
          rcases List.mem_cons.mp hx with h | h
          · exact absurd h hxa
          · exact h
        have hyt : y ∈ t := by
          rcases List.mem_cons.mp hy with h | h
          · exact absurd h hya
          · exact h
        rcases ih hxt hyt with h | h
        · exact Or.inl (h.cons a)
        · exact Or.inr (h.cons a)

/-- In a duplicate-free list, the pair order is antisymmetric. -/
theorem pair_sublist_antisymm {α : Type u} :
    ∀ {l : List α} {x y : α}, l.Nodup → [x, y].Sublist l → [y, x].Sublist l → x = y := by
  intro l
  induction l with
  | nil =>
    intro x y _ h1 _
    cases h1
  | cons a t ih =>
    intro x y hnd h1 h2
    have hnd' := List.nodup_cons.mp hnd
    cases h1 with
    | cons _ h1' =>
      cases h2 with
      | cons _ h2' => exact ih hnd'.2 h1' h2'
      | cons₂ _ h2' =>
        exact absurd (h1'.subset (List.mem_cons_of_mem x (List.mem_singleton_self _))) hnd'.1
    | cons₂ _ h1' =>
      cases h2 with
      | cons _ h2' =>
        exact absurd (h2'.subset (List.mem_cons_of_mem y (List.mem_singleton_self _))) hnd'.1
      | cons₂ _ h2' => rfl

/-- Two sorted duplicate-free permutations of each other that order their
tied (mutually `le`) elements the same way are equal. -/
theorem eq_of_perm_of_sorted_of_ties {α : Type u} (le : α → α → Bool) :
    ∀ {s₁ s₂ : List α}, s₁.Perm s₂ → s₁.Pairwise (fun a b => le a b = true) →
      s₂.Pairwise (fun a b => le a b = true) → s₁.Nodup →
      (∀ x y, x ≠ y → le x y = true → le y x = true →
        [x, y].Sublist s₁ → [x, y].Sublist s₂) → s₁ = s₂ := by
  intro s₁
  induction s₁ with
  | nil =>
    intro s₂ hp _ _ _ _
    exact hp.nil_eq
  | cons a t ih =>
    intro s₂ hp hs₁ hs₂ hnd hties
    cases s₂ with
    | nil =>
      have := hp.length_eq
      simp at this
    | cons b t₂ =>
      by_cases hab : a = b
      · subst hab
        refine congrArg (List.cons a) (ih hp.cons_inv (List.pairwise_cons.mp hs₁).2
          (List.pairwise_cons.mp hs₂).2 (List.nodup_cons.mp hnd).2 ?_)
        intro x y hxy hl1 hl2 hsub
        have hsub₂ : [x, y].Sublist (a :: t₂) := hties x y hxy hl1 hl2 (hsub.cons a)
        cases hsub₂ with
        | cons _ h => exact h
        | cons₂ _ h =>
          exact absurd (hsub.subset (List.mem_cons_self _ [y])) (List.nodup_cons.mp hnd).1
      · exfalso
        have hbt : b ∈ t := by
          rcases List.mem_cons.mp (hp.symm.subset (List.mem_cons_self b t₂)) with h | h
          · exact absurd h.symm hab
          · exact h
        have hat₂ : a ∈ t₂ := by
          rcases List.mem_cons.mp (hp.subset (List.mem_cons_self a t)) with h | h
          · exact absurd h hab
          · exact h
        have hle₁ : le a b = true := (List.pairwise_cons.mp hs₁).1 b hbt
        have hle₂ : le b a = true := (List.pairwise_cons.mp hs₂).1 a hat₂
        have hsubab : [a, b].Sublist (a :: t) :=
          List.Sublist.cons₂ a (List.singleton_sublist.mpr hbt)
        have hsub₂ : [a, b].Sublist (b :: t₂) := hties a b hab hle₁ hle₂ hsubab
        have hnd₂ : (b :: t₂).Nodup := hp.nodup_iff.mp hnd
        cases hsub₂ with
        | cons _ h =>
          exact (List.nodup_cons.mp hnd₂).1
            (h.subset (List.mem_cons_of_mem a (List.mem_singleton_self b)))
        | cons₂ _ h => exact hab rfl

/-- The stable sort maps two duplicate-free permutations of each other that
agree on the order of their ties to the same output. -/
theorem pySorted_eq_of_tie_order (le : α → α → Bool)
    (total : ∀ a b, le a b = true ∨ le b a = true)
    (htrans : ∀ a b c, le a b = true → le b c = true → le a c = true)
    {l₁ l₂ : List α} (hp : l₁.Perm l₂) (hnd : l₁.Nodup)
    (hties : ∀ x y, x ≠ y → le x y = true → le y x = true →
      [x, y].Sublist l₁ → [x, y].Sublist l₂) :
    pySorted le l₁ = pySorted le l₂ := by
  refine eq_of_perm_of_sorted_of_ties le
    (((pySorted_perm le l₁).trans hp).trans (pySorted_perm le l₂).symm)
    (pySorted_sorted le total htrans l₁) (pySorted_sorted le total htrans l₂)
    ((pySorted_perm le l₁).nodup_iff.mpr hnd) ?_
  intro x y hxy h1 h2 hsub
  have hnds : (pySorted le l₁).Nodup := (pySorted_perm le l₁).nodup_iff.mpr hnd
  have hx1 : x ∈ l₁ := (pySorted_perm le l₁).mem_iff.mp (hsub.subset (by simp))
  have hy1 : y ∈ l₁ := (pySorted_perm le l₁).mem_iff.mp (hsub.subset (by simp))
  have hordl₁ : [x, y].Sublist l₁ := by
    rcases pair_sublist_total hx1 hy1 hxy with h | h
    · exact h
    · exfalso
      have hyx : [y, x].Sublist (pySorted le l₁) := List.pair_sublist_insertionSort h2 h
      exact hxy (pair_sublist_antisymm hnds hsub hyx)
  exact List.pair_sublist_insertionSort h1 (hties x y hxy h1 h2 hordl₁)

/-- A second run of the campaign loop against a current manifest that stores
exactly the block the first run produced reproduces that block verbatim. -/
theorem processCampaign_fixpoint (o : String) (cm cm₂ : List Block) (d : CampaignDir)
    (hfname : (d.files.map DiskFile.name).Nodup)
    (hblock : oldBlock cm₂ d.title = some (processCampaign o cm d)) :
    processCampaign o cm₂ d = processCampaign o cm d := by
  have hom_nodup : ((oldMaps cm d.title).map Entry.name).Nodup := by
    unfold oldMaps
    exact pyDict_key_nodup Entry.name _
  have hsnodup : ((sortedFiles d).map DiskFile.name).Nodup :=
    (((pySorted_perm fileLe d.files).map DiskFile.name).nodup_iff).mpr hfname
  have hname_nodup : ((preEntries o (oldMaps cm d.title) d).map Entry.name).Nodup :=
    preEntries_name_nodup hom_nodup hsnodup
  have hBperm : (processCampaign o cm d).maps.Perm (preEntries o (oldMaps cm d.title) d) :=
    pySorted_perm entryLe _
  have hBnames : ((processCampaign o cm d).maps.map Entry.name).Nodup :=
    ((hBperm.map Entry.name).nodup_iff).mpr hname_nodup
  have hom₂ : oldMaps cm₂ d.title = (processCampaign o cm d).maps := by
    unfold oldMaps
    rw [hblock]
    exact pyDict_eq_self Entry.name hBnames
  have hver₂ : oldVersion cm₂ d.title = (processCampaign o cm d).version := by
    unfold oldVersion
    rw [hblock]
    rfl
  have hstep : ∀ g ∈ sortedFiles d,
      buildEntry o d.title (processCampaign o cm d).maps g =
        buildEntry o d.title (oldMaps cm d.title) g := by
    intro g hg
    have hmem : buildEntry o d.title (oldMaps cm d.title) g ∈ (processCampaign o cm d).maps := by
      refine hBperm.mem_iff.mpr ?_
      rw [show preEntries o (oldMaps cm d.title) d =
          fileEntries o (oldMaps cm d.title) d ++
            resurrected (oldMaps cm d.title)
              ((fileEntries o (oldMaps cm d.title) d).map Entry.name) from rfl]
      exact List.mem_append.mpr (Or.inl (List.mem_map_of_mem _ hg))
    have hfind : (processCampaign o cm d).maps.find? (fun x => decide (x.name = g.name)) =
        some (buildEntry o d.title (oldMaps cm d.title) g) := by
      have h0 := find?_key_of_mem Entry.name hmem hBnames
      simp only [buildEntry_name] at h0
      exact h0
    exact buildEntry_of_match hfind (buildEntry_sha _ _ _ _) (buildEntry_url _ _ _ _)
  have hfe : fileEntries o (oldMaps cm₂ d.title) d = fileEntries o (oldMaps cm d.title) d := by
    rw [hom₂]
    unfold fileEntries
    exact List.map_congr_left hstep
  have hres₂ : (resurrected (oldMaps cm₂ d.title)
      ((fileEntries o (oldMaps cm d.title) d).map Entry.name)).Perm
      (resurrected (oldMaps cm d.title)
        ((fileEntries o (oldMaps cm d.title) d).map Entry.name)) := by
    rw [hom₂]
    have h1 : (resurrected (processCampaign o cm d).maps
        ((fileEntries o (oldMaps cm d.title) d).map Entry.name)).Perm
        (resurrected (preEntries o (oldMaps cm d.title) d)
          ((fileEntries o (oldMaps cm d.title) d).map Entry.name)) := by
      unfold resurrected
      exact (hBperm.filter _).filter _
    have h3 : resurrected (preEntries o (oldMaps cm d.title) d)
        ((fileEntries o (oldMaps cm d.title) d).map Entry.name) =
        resurrected (oldMaps cm d.title)
          ((fileEntries o (oldMaps cm d.title) d).map Entry.name) := by
      rw [show preEntries o (oldMaps cm d.title) d =
          fileEntries o (oldMaps cm d.title) d ++
            resurrected (oldMaps cm d.title)
              ((fileEntries o (oldMaps cm d.title) d).map Entry.name) from rfl]
      rw [resurrected_append]
      rw [resurrected_eq_nil (fun x hx => List.mem_map_of_mem Entry.name hx), List.nil_append]
      exact resurrected_eq_self (fun x hx => (mem_resurrected.mp hx).2.1)
        (fun x hx => (mem_resurrected.mp hx).2.2)
    exact h3 ▸ h1
  have hpre₂_perm : (preEntries o (oldMaps cm₂ d.title) d).Perm
      (preEntries o (oldMaps cm d.title) d) := by
    rw [show preEntries o (oldMaps cm₂ d.title) d =
        fileEntries o (oldMaps cm₂ d.title) d ++
          resurrected (oldMaps cm₂ d.title)
            ((fileEntries o (oldMaps cm₂ d.title) d).map Entry.name) from rfl]
    rw [show preEntries o (oldMaps cm d.title) d =
        fileEntries o (oldMaps cm d.title) d ++
          resurrected (oldMaps cm d.title)
            ((fileEntries o (oldMaps cm d.title) d).map Entry.name) from rfl]
    rw [hfe]
    exact hres₂.append_left _
  have hnd_pre : (preEntries o (oldMaps cm d.title) d).Nodup := hname_nodup.of_map
  have hres₂' : (resurrected (processCampaign o cm d).maps
      ((fileEntries o (oldMaps cm d.title) d).map Entry.name)).Perm
      (resurrected (oldMaps cm d.title)
        ((fileEntries o (oldMaps cm d.title) d).map Entry.name)) := by
    have h := hres₂
    rw [hom₂] at h
    exact h
  have hres_nodup : (resurrected (oldMaps cm d.title)
      ((fileEntries o (oldMaps cm d.title) d).map Entry.name)).Nodup := by
    have hsub : List.Sublist (resurrected (oldMaps cm d.title)
        ((fileEntries o (oldMaps cm d.title) d).map Entry.name)) (oldMaps cm d.title) :=
      (List.filter_sublist _).trans (List.filter_sublist _)
    exact (hom_nodup.of_map).sublist hsub
  have hres₂_nodup : (resurrected (processCampaign o cm d).maps
      ((fileEntries o (oldMaps cm d.title) d).map Entry.name)).Nodup :=
    hres₂'.nodup_iff.mpr hres_nodup
  have hres_fwd : ∀ u v : Entry, entryLe u v = true →
      [u, v].Sublist (resurrected (oldMaps cm d.title)
        ((fileEntries o (oldMaps cm d.title) d).map Entry.name)) →
      [u, v].Sublist (resurrected (processCampaign o cm d).maps
        ((fileEntries o (oldMaps cm d.title) d).map Entry.name)) := by
    intro u v huv hsub
    have hu : u ∈ resurrected (oldMaps cm d.title)
        ((fileEntries o (oldMaps cm d.title) d).map Entry.name) :=
      hsub.subset (by simp)
    have hv : v ∈ resurrected (oldMaps cm d.title)
        ((fileEntries o (oldMaps cm d.title) d).map Entry.name) :=
      hsub.subset (by simp)
    have h1 : [u, v].Sublist (preEntries o (oldMaps cm d.title) d) := by
      rw [show preEntries o (oldMaps cm d.title) d =
          fileEntries o (oldMaps cm d.title) d ++
            resurrected (oldMaps cm d.title)
              ((fileEntries o (oldMaps cm d.title) d).map Entry.name) from rfl]
      exact hsub.trans (List.sublist_append_right _ _)
    have h2 : [u, v].Sublist (processCampaign o cm d).maps :=
      List.pair_sublist_insertionSort huv h1
    have hflt1 : [u, v].filter (fun e => e.release_asset) = [u, v] := by
      rw [List.filter_eq_self]
      intro a ha
      rcases List.mem_cons.mp ha with h | h
      · rw [h]; exact (mem_resurrected.mp hu).2.1
      · rw [List.mem_singleton.mp h]; exact (mem_resurrected.mp hv).2.1
    have hflt2 : [u, v].filter (fun e => decide
        (e.name ∉ (fileEntries o (oldMaps cm d.title) d).map Entry.name)) = [u, v] := by
      rw [List.filter_eq_self]
      intro a ha
      rcases List.mem_cons.mp ha with h | h
      · rw [h]; simpa using (mem_resurrected.mp hu).2.2
      · rw [List.mem_singleton.mp h]; simpa using (mem_resurrected.mp hv).2.2
    have h3 := h2.filter (fun e => e.release_asset)
    rw [hflt1] at h3
    have h4 := h3.filter (fun e => decide
        (e.name ∉ (fileEntries o (oldMaps cm d.title) d).map Entry.name))
    rw [hflt2] at h4
    exact h4
  have hres_bwd : ∀ u v : Entry, u ≠ v → entryLe u v = true → entryLe v u = true →
      [u, v].Sublist (resurrected (processCampaign o cm d).maps
        ((fileEntries o (oldMaps cm d.title) d).map Entry.name)) →
      [u, v].Sublist (resurrected (oldMaps cm d.title)
        ((fileEntries o (oldMaps cm d.title) d).map Entry.name)) := by
    intro u v huv h1 h2 hsub
    have hu : u ∈ resurrected (oldMaps cm d.title)
        ((fileEntries o (oldMaps cm d.title) d).map Entry.name) :=
      hres₂'.mem_iff.mp (hsub.subset (by simp))
    have hv : v ∈ resurrected (oldMaps cm d.title)
        ((fileEntries o (oldMaps cm d.title) d).map Entry.name) :=
      hres₂'.mem_iff.mp (hsub.subset (by simp))
    rcases pair_sublist_total hu hv huv with h | h
    · exact h
    · exfalso
      exact huv (pair_sublist_antisymm hres₂_nodup hsub (hres_fwd v u h2 h))
  have hties : ∀ x y : Entry, x ≠ y → entryLe x y = true → entryLe y x = true →
      [x, y].Sublist (preEntries o (oldMaps cm₂ d.title) d) →
      [x, y].Sublist (preEntries o (oldMaps cm d.title) d) := by
    intro x y hxy h1 h2 hsub
    rw [show preEntries o (oldMaps cm₂ d.title) d =
        fileEntries o (oldMaps cm₂ d.title) d ++
          resurrected (oldMaps cm₂ d.title)
            ((fileEntries o (oldMaps cm₂ d.title) d).map Entry.name) from rfl,
      hfe, hom₂] at hsub
    rw [show preEntries o (oldMaps cm d.title) d =
        fileEntries o (oldMaps cm d.title) d ++
          resurrected (oldMaps cm d.title)
            ((fileEntries o (oldMaps cm d.title) d).map Entry.name) from rfl]
    obtain ⟨u, v, huv, hu, hv⟩ := List.sublist_append_iff.mp hsub
    cases u with
    | nil =>
      have hveq : v = [x, y] := by simpa using huv.symm
      rw [hveq] at hv
      exact (hres_bwd x y hxy h1 h2 hv).trans (List.sublist_append_right _ _)
    | cons a u' =>
      cases u' with
      | nil =>
        simp only [List.cons_append, List.nil_append, List.cons.injEq] at huv
        obtain ⟨hax, hyv⟩ := huv
        rw [← hax] at hu
        have hyres₂ : y ∈ resurrected (processCampaign o cm d).maps
            ((fileEntries o (oldMaps cm d.title) d).map Entry.name) := by
          rw [← hyv] at hv
          exact hv.subset (List.mem_singleton_self y)
        have hyres : y ∈ resurrected (oldMaps cm d.title)
            ((fileEntries o (oldMaps cm d.title) d).map Entry.name) :=
          hres₂'.mem_iff.mp hyres₂
        exact List.Sublist.append hu (List.singleton_sublist.mpr hyres)
      | cons b u'' =>
        cases u'' with
        | nil =>
          simp only [List.cons_append, List.nil_append, List.cons.injEq] at huv
          obtain ⟨hax, hby, hnil⟩ := huv
          rw [← hax, ← hby] at hu
          exact hu.trans (List.sublist_append_left _ _)
        | cons c u''' =>
          exfalso
          have hlen := congrArg List.length huv
          simp [List.length_append] at hlen
  have hpre₂_nodup : (preEntries o (oldMaps cm₂ d.title) d).Nodup :=
    hpre₂_perm.nodup_iff.mpr hnd_pre
  have hmaps₂ : (processCampaign o cm₂ d).maps = (processCampaign o cm d).maps := by
    have hL : (processCampaign o cm₂ d).maps =
        pySorted entryLe (preEntries o (oldMaps cm₂ d.title) d) := rfl
    have hR : (processCampaign o cm d).maps =
        pySorted entryLe (preEntries o (oldMaps cm d.title) d) := rfl
    rw [hL, hR]
    exact pySorted_eq_of_tie_order entryLe entryLe_total entryLe_trans hpre₂_perm
      hpre₂_nodup hties
  have hmut : mutatedOldMaps o d (processCampaign o cm d).maps =
      (processCampaign o cm d).maps := by
    unfold mutatedOldMaps
    have hcongr : (processCampaign o cm d).maps.map (fun e =>
        match (sortedFiles d).find? (fun f => decide (f.name = e.name)) with
        | some f => buildEntry o d.title (processCampaign o cm d).maps f
        | none => e) = (processCampaign o cm d).maps.map id := by
      apply List.map_congr_left
      intro e he
      cases hfind : (sortedFiles d).find? (fun f => decide (f.name = e.name)) with
      | none => rfl
      | some f =>
        have hfmem : f ∈ sortedFiles d := List.mem_of_find?_eq_some hfind
        have hfname2 : f.name = e.name := by
          have hp := List.find?_some hfind
          simpa using hp
        have hbmem : buildEntry o d.title (oldMaps cm d.title) f ∈
            (processCampaign o cm d).maps := by
          refine hBperm.mem_iff.mpr ?_
          rw [show preEntries o (oldMaps cm d.title) d =
              fileEntries o (oldMaps cm d.title) d ++
                resurrected (oldMaps cm d.title)
                  ((fileEntries o (oldMaps cm d.title) d).map Entry.name) from rfl]
          exact List.mem_append.mpr (Or.inl (List.mem_map_of_mem _ hfmem))
        have hee : e = buildEntry o d.title (oldMaps cm d.title) f :=
          mem_key_unique Entry.name hBnames he hbmem
            (by rw [buildEntry_name]; exact hfname2.symm)
        show buildEntry o d.title (processCampaign o cm d).maps f = e
        rw [hstep f hfmem]
        exact hee.symm
    rw [hcongr, List.map_id]
  have hver : (processCampaign o cm₂ d).version = (processCampaign o cm d).version := by
    have hL : (processCampaign o cm₂ d).version =
        if changedFlag (mutatedOldMaps o d (oldMaps cm₂ d.title))
            (pySorted entryLe (preEntries o (oldMaps cm₂ d.title) d)) then
          bump_minor (oldVersion cm₂ d.title)
        else oldVersion cm₂ d.title := rfl
    rw [hL]
    have hentry : pySorted entryLe (preEntries o (oldMaps cm₂ d.title) d) =
        (processCampaign o cm d).maps := hmaps₂
    rw [hentry, hom₂, hmut, changedFlag_self]
    rw [if_neg (fun h => Bool.noConfusion h)]
    exact hver₂
  exact Block_ext rfl hver rfl hmaps₂

theorem reconcile_titles_nodup (o : String) (prev : List Block) (dirs : List CampaignDir)
    (h : (dirs.map CampaignDir.title).Nodup) :
    ((reconcile o prev dirs).map Block.title).Nodup := by
  have h1 : (reconcile o prev dirs).map Block.title =
      (pySorted dirLe dirs).map CampaignDir.title := by
    unfold reconcile
    rw [List.map_map]
    exact List.map_congr_left fun d _ => rfl
  rw [h1]
  exact (((pySorted_perm dirLe dirs).map CampaignDir.title).nodup_iff).mpr h

/-- C1: for every previous manifest and every scanned tree (campaign
directory titles distinct and file names distinct within a directory, as on
a real filesystem), running the reconciliation a second time on an unchanged
filesystem, with the first run's output as the previous manifest, reproduces
the first run's manifest verbatim — no entry version, hash or campaign
version changes. -/
theorem claim_C1_idempotence (o : String) (prev : List Block) (dirs : List CampaignDir)
    (htitles : (dirs.map CampaignDir.title).Nodup)
    (hfiles : ∀ d ∈ dirs, (d.files.map DiskFile.name).Nodup) :
    reconcile o (reconcile o prev dirs) dirs = reconcile o prev dirs := by
  have hsort_perm : (pySorted dirLe dirs).Perm dirs := pySorted_perm dirLe dirs
  have hM1titles : ((reconcile o prev dirs).map Block.title).Nodup :=
    reconcile_titles_nodup o prev dirs htitles
  have hblock : ∀ d ∈ dirs,
      oldBlock (reconcile o prev dirs) d.title = some (processCampaign o prev d) := by
    intro d hd
    have hdmem : processCampaign o prev d ∈ reconcile o prev dirs := by
      unfold reconcile
      exact List.mem_map_of_mem _ (hsort_perm.mem_iff.mpr hd)
    unfold oldBlock dictGet
    rw [pyDict_eq_self Block.title hM1titles]
    have h0 := find?_key_of_mem Block.title hdmem hM1titles
    rw [show (processCampaign o prev d).title = d.title from rfl] at h0
    exact h0
  show (pySorted dirLe dirs).map (processCampaign o (reconcile o prev dirs)) =
    (pySorted dirLe dirs).map (processCampaign o prev)
  apply List.map_congr_left
  intro d hd
  have hd' : d ∈ dirs := hsort_perm.mem_iff.mp hd
  exact processCampaign_fixpoint o prev (reconcile o prev dirs) d (hfiles d hd') (hblock d hd')

/-- C1 witness at a concrete manifest and directory tree with a resurrected
release asset, a mod file and a fresh campaign. -/
theorem claim_C1_witness :
    reconcile "o/r" (reconcile "o/r" prevC1 dirsC1) dirsC1 = reconcile "o/r" prevC1 dirsC1 :=
  claim_C1_idempotence "o/r" prevC1 dirsC1 (by decide) (by decide)

/-! ### C10: determinism and order independence -/

/-- C10 counterexample: with two files whose names differ only in case, the
two stable sorts keep the enumeration order of the tie, so enumerating the
same files in a different order changes the emitted manifest. -/
theorem claim_C10_counterexample :
    [fileUpperA, fileLowerA].Perm [fileLowerA, fileUpperA] ∧
    reconcile "o/r" [] [⟨"C", [fileUpperA, fileLowerA]⟩] ≠
      reconcile "o/r" [] [⟨"C", [fileLowerA, fileUpperA]⟩] :=
  ⟨by decide, by decide⟩

theorem processCampaign_files_congr (o : String) (cm : List Block) (d₁ d₂ : CampaignDir)
    (ht : d₁.title = d₂.title)
    (hfiles : pySorted fileLe d₁.files = pySorted fileLe d₂.files) :
    processCampaign o cm d₁ = processCampaign o cm d₂ := by
  unfold processCampaign mutatedOldMaps preEntries fileEntries sortedFiles
  rw [ht, hfiles]

/-- C10 amended: with distinct campaign titles and no case-colliding file
names inside a campaign, the manifest does not depend on the enumeration
order of directories or of files: permuting the directory list and each
directory's file list leaves the output unchanged. -/
theorem claim_C10_order_independence (o : String) (prev : List Block)
    (dirs₁ dirs₃ dirs₂ : List CampaignDir)
    (hp : dirs₁.Perm dirs₃)
    (hmatch : List.Forall₂ (fun a b => a.title = b.title ∧ a.files.Perm b.files) dirs₃ dirs₂)
    (htitles : (dirs₁.map CampaignDir.title).Nodup)
    (hlower : ∀ d ∈ dirs₁, (d.files.map fileKey).Nodup) :
    reconcile o prev dirs₁ = reconcile o prev dirs₂ := by
  have hproc : ∀ a b, a ∈ dirs₁ → a.title = b.title → a.files.Perm b.files →
      processCampaign o prev a = processCampaign o prev b := by
    intro a b ha1 hab1 hab2
    apply processCampaign_files_congr o prev a b hab1
    exact pySorted_congr_perm fileLe fileKey (fun x y h1 h2 => fileLe_key h1 h2)
      fileLe_total fileLe_trans hab2 (hlower a ha1)
  have hmap : ∀ (l₃ l₂ : List CampaignDir), (∀ x ∈ l₃, x ∈ dirs₁) →
      List.Forall₂ (fun a b => a.title = b.title ∧ a.files.Perm b.files) l₃ l₂ →
      l₃.map (processCampaign o prev) = l₂.map (processCampaign o prev) := by
    intro l₃
    induction l₃ with
    | nil =>
      intro l₂ _ hf
      cases hf
      rfl
    | cons a t ih =>
      intro l₂ hsub hf
      cases hf with
      | cons hab htail =>
        simp only [List.map_cons]
        rw [hproc a _ (hsub a (List.mem_cons_self a t)) hab.1 hab.2,
          ih _ (fun x hx => hsub x (List.mem_cons_of_mem a hx)) htail]
  have htitles₂ : (dirs₂.map CampaignDir.title).Nodup := by
    have hperm3 : (dirs₁.map CampaignDir.title).Perm (dirs₃.map CampaignDir.title) :=
      hp.map _
    have heqgen : ∀ (l₃ l₂ : List CampaignDir),
        List.Forall₂ (fun a b => a.title = b.title ∧ a.files.Perm b.files) l₃ l₂ →
        l₃.map CampaignDir.title = l₂.map CampaignDir.title := by
      intro l₃ l₂ hf
      induction hf with
      | nil => rfl
      | cons hab _ ih => simp only [List.map_cons]; rw [hab.1, ih]
    have heq32 := heqgen dirs₃ dirs₂ hmatch
    exact ((hperm3.trans (heq32 ▸ List.Perm.refl _)).nodup_iff).mp htitles
  refine eq_of_perm_of_sortedKeys (fun b₁ b₂ : Block => strLe b₁.title b₂.title) Block.title
    (fun a b h1 h2 => strLe_antisymm h1 h2) ?_ ?_ ?_ ?_
  · show (reconcile o prev dirs₁).Perm (reconcile o prev dirs₂)
    have p1 : ((pySorted dirLe dirs₁).map (processCampaign o prev)).Perm
        (dirs₁.map (processCampaign o prev)) := (pySorted_perm dirLe dirs₁).map _
    have p2 : (dirs₁.map (processCampaign o prev)).Perm
        (dirs₃.map (processCampaign o prev)) := hp.map _
    have p3 : dirs₃.map (processCampaign o prev) = dirs₂.map (processCampaign o prev) :=
      hmap dirs₃ dirs₂ (fun x hx => hp.mem_iff.mpr hx) hmatch
    have p4 : (dirs₂.map (processCampaign o prev)).Perm
        ((pySorted dirLe dirs₂).map (processCampaign o prev)) :=
      ((pySorted_perm dirLe dirs₂).map _).symm
    exact p1.trans (p2.trans (by rw [p3]; exact p4))
  · show ((pySorted dirLe dirs₁).map (processCampaign o prev)).Pairwise _
    rw [List.pairwise_map]
    refine (pySorted_sorted dirLe dirLe_total dirLe_trans dirs₁).imp ?_
    intro a b hab
    exact hab
  · show ((pySorted dirLe dirs₂).map (processCampaign o prev)).Pairwise _
    rw [List.pairwise_map]
    refine (pySorted_sorted dirLe dirLe_total dirLe_trans dirs₂).imp ?_
    intro a b hab
    exact hab
  · exact reconcile_titles_nodup o prev dirs₁ htitles

/-- C10 witness: permuting both the directory list and one directory's file
list leaves the concrete output unchanged. -/
theorem claim_C10_witness :
    reconcile "o/r" [] dirsC10first = reconcile "o/r" [] dirsC10second :=
  claim_C10_order_independence "o/r" [] dirsC10first dirsC10mid dirsC10second
    (by decide)
    (List.Forall₂.cons ⟨rfl, by decide⟩ (List.Forall₂.cons ⟨rfl, by decide⟩ List.Forall₂.nil))
    (by decide) (by decide)

end MapsJson
